import Mathlib

/-!
Verification of the iter-merge k-way merging engine.

The Rust sources are shallowly embedded as follows:

* `PeekIter` (src/internal.rs): an eagerly peeked item together with the rest
  of the input iterator; input iterators are modelled as Lean lists.
* `HeapState` (src/internal/heap.rs `Heap` + a storage backend): `slots` is the
  insertion-ordered backing array of `PeekIter`s (never reordered; a slot index
  plays the role of a slot address, which is monotone in insertion rank) and
  `ptrs` is the heap array of pointers, modelled as slot indices.
* A comparator (src/comparators.rs) receives references to the peeked items;
  a reference is modelled as the pair (slot index, current item value), so that
  address-based tie-breakers (src/comparators/tie_breaker.rs) are expressible.
* The hole-based sift (src/internal/hole.rs, `Heap::sift_down_element`),
  `Heap::heapify_storage`, `Heap::pop_front_item`, `Heap::into_vec`,
  `MergeIter::size_hint`, `StorageOps::clear` and `ArrayStorage::try_push` are
  translated operation by operation below.
-/

/-- Model of `PeekIter` (src/internal.rs): the eagerly peeked `item` plus the
remaining input iterator `iter`, modelled as a list. -/
structure PeekIter (α : Type) where
  item : α
  iter : List α
deriving Repr, DecidableEq

instance [Inhabited α] : Inhabited (PeekIter α) := ⟨⟨default, []⟩⟩

/-- `PeekIter::advance`: pull one element from `iter`; on success return the
previously peeked item and the updated slot, on exhaustion return `none`
(the peeked item stays in place, per src/internal.rs lines 76-79). -/
def PeekIter.advance (p : PeekIter α) : Option (α × PeekIter α) :=
  match p.iter with
  | [] => none
  | x :: rest => some (p.item, ⟨x, rest⟩)

/-- `PeekIter::new_from_iter` (src/internal.rs lines 84-91): peek the first
element; an empty input produces no slot. -/
def newFromIter (l : List α) : Option (PeekIter α) :=
  match l with
  | [] => none
  | x :: rest => some ⟨x, rest⟩

/-- A comparator as it is actually invoked by the heap
(`Heap::cmp` passes `&a.item, &b.item`): it may observe the address of each
item (modelled by the slot index) and the item value. -/
def Cmp (α : Type) := Nat → α → Nat → α → Ordering

/-- `ByOrd` (src/comparators.rs lines 125-130): compare the values with `Ord`. -/
def byOrdC [Ord α] : Cmp α := fun _ a _ b => compare a b

/-- `InsertionOrder` (src/comparators/tie_breaker.rs lines 21-26): compare the
addresses of the items, i.e. the slot indices. -/
def insOrdC : Cmp α := fun p _ q _ => compare p q

/-- `Chain` (src/comparators.rs lines 90-103): use the second comparator when
the first answers `Equal`. -/
def chainC (c₁ c₂ : Cmp α) : Cmp α := fun p a q b => (c₁ p a q b).then (c₂ p a q b)

/-- `MaxFirst` (src/comparators.rs lines 57-65): swap the operands. -/
def maxFirstC (c : Cmp α) : Cmp α := fun p a q b => c q b p a

/-- A plain value comparator (the only thing a user-written `Comparator` can
be, since it has no access to addresses) lifted to `Cmp`. -/
def liftC (c : α → α → Ordering) : Cmp α := fun _ a _ b => c a b

/-- The default composed comparator of `DefaultMergeIter`
(src/merge_iter/builder.rs lines 11-15): `Chain<ByOrd, InsertionOrder>`. -/
def defaultC [Ord α] : Cmp α := chainC byOrdC insOrdC

/-- State of the engine: the storage (`slots`, fixed insertion order) and the
heap of pointers (`ptrs`, slot indices). A live slot is one referenced from
`ptrs`; dropped slots simply stop being referenced. -/
structure HeapState (α : Type) where
  slots : List (PeekIter α)
  ptrs : List Nat
deriving Repr, DecidableEq

/-- `Heap::cmp` at a given storage: dereference the two slot pointers and hand
the item references to the comparator. -/
def cmpAt [Inhabited α] (cmp : Cmp α) (slots : List (PeekIter α)) (p q : Nat) : Ordering :=
  cmp p (slots.getD p default).item q (slots.getD q default).item

/-- One `Hole::move_to`-and-exit style helper: the loop body of
`Heap::sift_down_element` (src/internal/heap.rs lines 100-154) with the hole
at `pos`, the lifted pointer `elt`, recursion fuelled (the source loop
terminates because the hole index at least doubles each iteration). -/
def siftLoop (c : Nat → Nat → Ordering) : Nat → List Nat → Nat → Nat → List Nat
  | 0, l, elt, pos => l.set pos elt
  | fuel + 1, l, elt, pos =>
    let len := l.length
    let child := pos * 2
    let lastEl := len - 1
    if child < lastEl then
      let child := if (c (l.getD child 0) (l.getD (child + 1) 0)).isGT then child + 1 else child
      if (c elt (l.getD child 0)).isLE then
        l.set pos elt
      else
        siftLoop c fuel (l.set pos (l.getD child 0)) elt child
    else if child = lastEl then
      if (c elt (l.getD child 0)).isLE then
        l.set pos elt
      else
        (l.set pos (l.getD child 0)).set child elt
    else
      l.set pos elt

/-- `Heap::sift_down_element(pos)`: lift `ptrs[pos]` into a hole and sift it
down; on every exit path the lifted pointer is written back at the hole. -/
def siftDown (c : Nat → Nat → Ordering) (l : List Nat) (pos : Nat) : List Nat :=
  siftLoop c l.length l (l.getD pos 0) pos

/-- Swap two entries of the pointer array (`ptr::swap_nonoverlapping`). -/
def swapL (l : List Nat) (i j : Nat) : List Nat :=
  (l.set i (l.getD j 0)).set j (l.getD i 0)

/-- The bottom-up phase of `Heap::heapify_storage`: sift-down at positions
`n, n-1, …, 1`. -/
def heapifyFrom (c : Nat → Nat → Ordering) : Nat → List Nat → List Nat
  | 0, l => l
  | n + 1, l => heapifyFrom c n (siftDown c l (n + 1))

/-- `Heap::heapify_storage` (src/internal/heap.rs lines 45-71): if `len ≤ 1`
do nothing; otherwise bottom-up sift-down on `len/2 .. 1`, then fix the
`[0,1]` pair, sifting from index 1 after a swap. -/
def heapifyStorage [Inhabited α] (cmp : Cmp α) (s : HeapState α) : HeapState α :=
  if s.ptrs.length ≤ 1 then s
  else
    let c := cmpAt cmp s.slots
    let l := heapifyFrom c (s.ptrs.length / 2) s.ptrs
    if (c (l.getD 0 0) (l.getD 1 0)).isGT then
      { s with ptrs := siftDown c (swapL l 0 1) 1 }
    else
      { s with ptrs := l }

/-- `Heap::pop_front_item` (src/internal/heap.rs lines 273-349), returning the
emitted item (if any) and the successor state. The branches follow the Rust
`match self.storage.len()` on 2, 1, 0 and 3-or-more. -/
def popFrontItem [Inhabited α] (cmp : Cmp α) (s : HeapState α) : Option α × HeapState α :=
  match s.ptrs with
  | [] => (none, s)
  | [p] =>
    let slot := s.slots.getD p default
    match slot.advance with
    | some (v, slot') => (some v, { s with slots := s.slots.set p slot' })
    | none => (some slot.item, { s with ptrs := [] })
  | [p, q] =>
    let slot := s.slots.getD p default
    match slot.advance with
    | some (v, slot') =>
      let slots' := s.slots.set p slot'
      if (cmpAt cmp slots' p q).isGT then
        (some v, { slots := slots', ptrs := [q, p] })
      else
        (some v, { slots := slots', ptrs := [p, q] })
    | none => (some slot.item, { s with ptrs := [q] })
  | p :: q :: r :: rs =>
    let slot := s.slots.getD p default
    match slot.advance with
    | some (v, slot') =>
      let slots' := s.slots.set p slot'
      if (cmpAt cmp slots' p q).isGT then
        (some v, { slots := slots', ptrs := siftDown (cmpAt cmp slots') (q :: p :: r :: rs) 1 })
      else
        (some v, { slots := slots', ptrs := p :: q :: r :: rs })
    | none =>
      let last := (r :: rs).getLast (List.cons_ne_nil r rs)
      let l := q :: last :: (r :: rs).dropLast
      (some slot.item, { s with ptrs := siftDown (cmpAt cmp s.slots) l 1 })

/-- Building the storage: each non-empty input becomes a slot in insertion
order (`push` filters empty inputs), and converting the storage into the
engine initializes `ptrs[i] = &slots[i]`. -/
def mkState (inputs : List (List α)) : HeapState α :=
  let slots := inputs.filterMap newFromIter
  { slots := slots, ptrs := List.range slots.length }

/-- `Builder::build`: wrap the storage and heapify. -/
def buildMerge [Inhabited α] (cmp : Cmp α) (inputs : List (List α)) : HeapState α :=
  heapifyStorage cmp (mkState inputs)

/-- Repeatedly call `MergeIter::next` (= `pop_front_item`), collecting emitted
items, with explicit fuel. -/
def runPop [Inhabited α] (cmp : Cmp α) : Nat → HeapState α → List α
  | 0, _ => []
  | fuel + 1, s =>
    match popFrontItem cmp s with
    | (none, _) => []
    | (some v, s') => v :: runPop cmp fuel s'

/-- The state after `k` calls to `next`. -/
def stepN [Inhabited α] (cmp : Cmp α) : Nat → HeapState α → HeapState α
  | 0, s => s
  | k + 1, s => stepN cmp k (popFrontItem cmp s).2

/-- Total number of elements still held by the state (each live slot holds its
peeked head plus its remaining iterator). -/
def totalCount [Inhabited α] (s : HeapState α) : Nat :=
  (s.ptrs.map (fun p => 1 + (s.slots.getD p default).iter.length)).sum

/-! ### List access helpers -/

theorem getD_set_self {l : List Nat} {i a d : Nat} (h : i < l.length) :
    (l.set i a).getD i d = a := by
  simp [List.getD_eq_getElem?_getD, List.getElem?_set_self, h]

theorem getD_set_ne {l : List Nat} {i j a d : Nat} (h : i ≠ j) :
    (l.set i a).getD j d = l.getD j d := by
  simp [List.getD_eq_getElem?_getD, List.getElem?_set_ne h]

theorem getD_mem {l : List Nat} {d j : Nat} (h : j < l.length) : l.getD j d ∈ l := by
  rw [List.getD_eq_getElem?_getD, List.getElem?_eq_getElem h]
  exact List.getElem_mem h

theorem slots_getD_set_ne [Inhabited α] {sl : List (PeekIter α)} {p q : Nat}
    {w : PeekIter α} (h : p ≠ q) : (sl.set p w).getD q default = sl.getD q default := by
  simp [List.getD_eq_getElem?_getD, List.getElem?_set_ne h]

theorem slots_getD_set_self [Inhabited α] {sl : List (PeekIter α)} {p : Nat}
    {w : PeekIter α} (h : p < sl.length) : (sl.set p w).getD p default = w := by
  simp [List.getD_eq_getElem?_getD, List.getElem?_set_self, h]

theorem cmpAt_set_ne [Inhabited α] {cmp : Cmp α} {sl : List (PeekIter α)}
    {p : Nat} {w : PeekIter α} {x y : Nat} (hx : x ≠ p) (hy : y ≠ p) :
    cmpAt cmp (sl.set p w) x y = cmpAt cmp sl x y := by
  unfold cmpAt
  rw [slots_getD_set_ne (Ne.symm hx), slots_getD_set_ne (Ne.symm hy)]

/-! ### The sift loop rephrased over the logical array

`siftLoop` keeps the lifted pointer in a hole; `siftSwap` acts on the logical
array in which the hole is already filled with the lifted pointer. The two
agree (for hole positions `≥ 1`), and the latter is easier to reason about. -/

/-- Swap-based counterpart of `siftLoop`, acting on the logical array. -/
def siftSwap (c : Nat → Nat → Ordering) : Nat → List Nat → Nat → List Nat
  | 0, l, _ => l
  | fuel + 1, l, pos =>
    let len := l.length
    let child := pos * 2
    let lastEl := len - 1
    if child < lastEl then
      let child := if (c (l.getD child 0) (l.getD (child + 1) 0)).isGT then child + 1 else child
      if (c (l.getD pos 0) (l.getD child 0)).isLE then
        l
      else
        siftSwap c fuel (swapL l pos child) child
    else if child = lastEl then
      if (c (l.getD pos 0) (l.getD child 0)).isLE then
        l
      else
        swapL l pos child
    else
      l

theorem siftLoop_eq_siftSwap (c : Nat → Nat → Ordering) :
    ∀ (fuel : Nat) (l : List Nat) (elt pos : Nat), 1 ≤ pos → pos < l.length →
      siftLoop c fuel l elt pos = siftSwap c fuel (l.set pos elt) pos := by
  intro fuel
  induction fuel with
  | zero =>
    intro l elt pos _ _
    rfl
  | succ fuel ih =>
    intro l elt pos hpos hlt
    have hlen : (l.set pos elt).length = l.length := by simp
    have hchild_ne : pos * 2 ≠ pos := by omega
    have hchild1_ne : pos * 2 + 1 ≠ pos := by omega
    simp only [siftLoop, siftSwap, hlen,
      getD_set_ne (Ne.symm hchild_ne), getD_set_ne (Ne.symm hchild1_ne),
      getD_set_self hlt]
    by_cases h1 : pos * 2 < l.length - 1
    · simp only [if_pos h1]
      by_cases hgt : (c (l.getD (pos * 2) 0) (l.getD (pos * 2 + 1) 0)).isGT
      · simp only [if_pos hgt]
        simp only [getD_set_ne (Ne.symm hchild_ne), getD_set_ne (Ne.symm hchild1_ne)]
        by_cases hle : (c elt (l.getD (pos * 2 + 1) 0)).isLE
        · simp only [if_pos hle]
        · simp only [if_neg hle]
          rw [ih _ elt (pos * 2 + 1) (by omega) (by simp; omega)]
          congr 1
          unfold swapL
          rw [getD_set_ne (Ne.symm hchild1_ne), getD_set_self hlt, List.set_set]
      · simp only [if_neg hgt]
        simp only [getD_set_ne (Ne.symm hchild_ne), getD_set_ne (Ne.symm hchild1_ne)]
        by_cases hle : (c elt (l.getD (pos * 2) 0)).isLE
        · simp only [if_pos hle]
        · simp only [if_neg hle]
          rw [ih _ elt (pos * 2) (by omega) (by simp; omega)]
          congr 1
          unfold swapL
          rw [getD_set_ne (Ne.symm hchild_ne), getD_set_self hlt, List.set_set]
    · simp only [if_neg h1]
      by_cases h2 : pos * 2 = l.length - 1
      · simp only [if_pos h2]
        by_cases hle : (c elt (l.getD (pos * 2) 0)).isLE
        · simp only [if_pos hle]
        · simp only [if_neg hle]
          unfold swapL
          rw [getD_set_ne (Ne.symm hchild_ne), getD_set_self hlt, List.set_set]
      · simp only [if_neg h2]

theorem set_getD_self {l : List Nat} {i : Nat} (h : i < l.length) :
    l.set i (l.getD i 0) = l := by
  rw [List.getD_eq_getElem?_getD, List.getElem?_eq_getElem h]
  apply List.ext_getElem
  · simp
  · intro n h1 h2
    simp only [List.getElem_set]
    split
    · subst ‹i = n›; rfl
    · rfl

theorem siftDown_eq_siftSwap (c : Nat → Nat → Ordering) (l : List Nat) (pos : Nat)
    (hpos : 1 ≤ pos) (hlt : pos < l.length) :
    siftDown c l pos = siftSwap c l.length l pos := by
  unfold siftDown
  rw [siftLoop_eq_siftSwap c _ l _ pos hpos hlt, set_getD_self hlt]

/-! ### Ordering and comparator facts -/

theorem isLE_iff_ne_gt {o : Ordering} : o.isLE = true ↔ o ≠ .gt := by
  cases o <;> simp [Ordering.isLE]

theorem isGT_iff_eq_gt {o : Ordering} : o.isGT = true ↔ o = .gt := by
  cases o <;> simp [Ordering.isGT]

theorem leC_trans {c : Nat → Nat → Ordering} (hc : Batteries.TransCmp c) {x y z : Nat}
    (h₁ : (c x y).isLE = true) (h₂ : (c y z).isLE = true) : (c x z).isLE = true := by
  rw [isLE_iff_ne_gt] at h₁ h₂ ⊢
  exact hc.le_trans h₁ h₂

theorem leC_refl {c : Nat → Nat → Ordering} (hc : Batteries.OrientedCmp c) (x : Nat) :
    (c x x).isLE = true := by
  rw [isLE_iff_ne_gt, hc.cmp_refl]
  simp

theorem leC_of_not_leC {c : Nat → Nat → Ordering} (hc : Batteries.OrientedCmp c) {x y : Nat}
    (h : ¬ (c x y).isLE = true) : (c y x).isLE = true := by
  haveI := hc
  have hgt : c x y = .gt := by
    rw [isLE_iff_ne_gt, not_not] at h
    exact h
  have hlt : c y x = .lt := Batteries.OrientedCmp.cmp_eq_gt.1 hgt
  rw [isLE_iff_ne_gt, hlt]
  simp

theorem leC_of_isGT {c : Nat → Nat → Ordering} (hc : Batteries.OrientedCmp c) {x y : Nat}
    (h : (c x y).isGT = true) : (c y x).isLE = true := by
  haveI := hc
  rw [isGT_iff_eq_gt] at h
  have hlt : c y x = .lt := Batteries.OrientedCmp.cmp_eq_gt.1 h
  rw [isLE_iff_ne_gt, hlt]
  simp

theorem leC_of_not_isGT {c : Nat → Nat → Ordering} {x y : Nat}
    (h : ¬ (c x y).isGT = true) : (c x y).isLE = true := by
  rw [isGT_iff_eq_gt] at h
  rw [isLE_iff_ne_gt]
  exact h

/-! ### Structural properties of swapping and sifting -/

theorem swapL_length (l : List Nat) (i j : Nat) : (swapL l i j).length = l.length := by
  simp [swapL]

theorem swapL_perm {l : List Nat} {i j : Nat} (hi : i < l.length) (hj : j < l.length) :
    (swapL l i j).Perm l := by
  rcases eq_or_ne i j with rfl | hij
  · unfold swapL
    rw [List.set_set, set_getD_self hi]
  · rw [List.perm_iff_count]
    intro a
    unfold swapL
    rw [List.getD_eq_getElem l 0 hi, List.getD_eq_getElem l 0 hj]
    have hj2 : j < (l.set i l[j]).length := by simpa using hj
    rw [List.count_set l[i] a (l.set i l[j]) j hj2, List.count_set l[j] a l i hi]
    have h1 : (l.set i l[j])[j] = l[j] := by
      rw [List.getElem_set]
      simp [hij]
    rw [h1]
    have hci : l[i] = a → 1 ≤ l.count a := fun he =>
      List.count_pos_iff.2 (he ▸ List.getElem_mem hi)
    have hcj : l[j] = a → 1 ≤ l.count a := fun he =>
      List.count_pos_iff.2 (he ▸ List.getElem_mem hj)
    by_cases e1 : l[i] = a <;> by_cases e2 : l[j] = a <;>
      simp [e1, e2, beq_iff_eq] <;> omega

theorem swapL_getD_ne {l : List Nat} {i j k : Nat} (h1 : k ≠ i) (h2 : k ≠ j) :
    (swapL l i j).getD k 0 = l.getD k 0 := by
  unfold swapL
  rw [getD_set_ne (Ne.symm h2), getD_set_ne (Ne.symm h1)]

theorem swapL_getD_left {l : List Nat} {i j : Nat} (hij : i ≠ j) (hi : i < l.length) :
    (swapL l i j).getD i 0 = l.getD j 0 := by
  unfold swapL
  rw [getD_set_ne (Ne.symm hij), getD_set_self hi]

theorem swapL_getD_right {l : List Nat} {i j : Nat} (hj : j < l.length) :
    (swapL l i j).getD j 0 = l.getD i 0 := by
  unfold swapL
  rw [getD_set_self (by simpa using hj)]

theorem siftSwap_length (c : Nat → Nat → Ordering) :
    ∀ (fuel : Nat) (l : List Nat) (pos : Nat), (siftSwap c fuel l pos).length = l.length := by
  intro fuel
  induction fuel with
  | zero => intro l pos; rfl
  | succ fuel ih =>
    intro l pos
    unfold siftSwap
    dsimp only
    split
    · split
      · split
        · rfl
        · rw [ih, swapL_length]
      · split
        · rfl
        · rw [ih, swapL_length]
    · split
      · split
        · rfl
        · rw [swapL_length]
      · rfl

theorem siftSwap_perm (c : Nat → Nat → Ordering) :
    ∀ (fuel : Nat) (l : List Nat) (pos : Nat), 1 ≤ pos → pos < l.length →
      (siftSwap c fuel l pos).Perm l := by
  intro fuel
  induction fuel with
  | zero => intro l pos _ _; exact List.Perm.refl l
  | succ fuel ih =>
    intro l pos hpos hlt
    unfold siftSwap
    dsimp only
    split
    · split
      · split
        · exact List.Perm.refl l
        · exact (ih _ _ (by omega) (by rw [swapL_length]; omega)).trans
            (swapL_perm hlt (by omega))
      · split
        · exact List.Perm.refl l
        · exact (ih _ _ (by omega) (by rw [swapL_length]; omega)).trans
            (swapL_perm hlt (by omega))
    · split
      · split
        · exact List.Perm.refl l
        · exact swapL_perm hlt (by omega)
      · exact List.Perm.refl l

theorem siftSwap_getD_lt (c : Nat → Nat → Ordering) :
    ∀ (fuel : Nat) (l : List Nat) (pos j : Nat), 1 ≤ pos → j < pos →
      (siftSwap c fuel l pos).getD j 0 = l.getD j 0 := by
  intro fuel
  induction fuel with
  | zero => intro l pos j _ _; rfl
  | succ fuel ih =>
    intro l pos j hpos hj
    unfold siftSwap
    dsimp only
    split
    · split
      · split
        · rfl
        · rw [ih _ _ j (by omega) (by omega), swapL_getD_ne (by omega) (by omega)]
      · split
        · rfl
        · rw [ih _ _ j (by omega) (by omega), swapL_getD_ne (by omega) (by omega)]
    · split
      · split
        · rfl
        · exact swapL_getD_ne (by omega) (by omega)
      · rfl

/-! ### Heap-order invariant -/

/-- Heap order on the region of parents at indices `≥ n` (and `≥ 1`): every
node compares `≤` its children at `i*2` and `i*2+1` (the layout documented in
src/internal/heap.rs lines 13-18: index 1 is the root of the binary heap). -/
def HeapFrom (c : Nat → Nat → Ordering) (l : List Nat) (n : Nat) : Prop :=
  ∀ i ch, n ≤ i → 1 ≤ i → (ch = i * 2 ∨ ch = i * 2 + 1) → ch < l.length →
    (c (l.getD i 0) (l.getD ch 0)).isLE = true

theorem siftSwap_heapFrom {c : Nat → Nat → Ordering} (hc : Batteries.TransCmp c) :
    ∀ (fuel : Nat) (l : List Nat) (pos n : Nat), 1 ≤ n → n ≤ pos → pos < l.length →
      l.length ≤ fuel + pos →
      (∀ i ch, n ≤ i → i ≠ pos → (ch = i * 2 ∨ ch = i * 2 + 1) → ch < l.length →
        (c (l.getD i 0) (l.getD ch 0)).isLE = true) →
      (n < pos → n ≤ pos / 2 ∧ ∀ ch, (ch = pos * 2 ∨ ch = pos * 2 + 1) → ch < l.length →
        (c (l.getD (pos / 2) 0) (l.getD ch 0)).isLE = true) →
      HeapFrom c (siftSwap c fuel l pos) n := by
  intro fuel
  induction fuel with
  | zero =>
    intro l pos n hn hnpos hpos hfuel heap upper
    omega
  | succ fuel ih =>
    intro l pos n hn hnpos hpos hfuel heap upper
    unfold siftSwap
    dsimp only
    split
    · rename_i h1
      split
      · rename_i hgt
        split
        · rename_i hle
          intro i ch hni hi1 hch hchlt
          by_cases hip : i = pos
          · subst hip
            rcases hch with rfl | rfl
            · exact leC_trans hc hle (leC_of_isGT hc.toOrientedCmp hgt)
            · exact hle
          · exact heap i ch hni hip hch hchlt
        · rename_i hle
          apply ih (swapL l pos (pos * 2 + 1)) (pos * 2 + 1) n hn (by omega)
            (by rw [swapL_length]; omega) (by rw [swapL_length]; omega)
          · intro i ch hni hine hch hchlt
            rw [swapL_length] at hchlt
            by_cases hip : i = pos
            · subst hip
              rw [swapL_getD_left (by omega) (by omega)]
              rcases hch with rfl | rfl
              · rw [swapL_getD_ne (by omega) (by omega)]
                exact leC_of_isGT hc.toOrientedCmp hgt
              · rw [swapL_getD_right (by omega)]
                exact leC_of_not_leC hc.toOrientedCmp hle
            · rw [swapL_getD_ne hip hine]
              by_cases hchp : ch = pos
              · have hipos : i = pos / 2 := by omega
                have hnpos2 : n < pos := by omega
                obtain ⟨hn2, hup⟩ := upper hnpos2
                rw [hchp, swapL_getD_left (by omega) (by omega), hipos]
                exact hup (pos * 2 + 1) (Or.inr rfl) (by omega)
              · by_cases hchcs : ch = pos * 2 + 1
                · exfalso; omega
                · rw [swapL_getD_ne hchp hchcs]
                  exact heap i ch hni hip hch (by omega)
          · intro hncs
            refine ⟨by omega, ?_⟩
            intro ch' hch' hch'lt
            rw [swapL_length] at hch'lt
            have hd2 : (pos * 2 + 1) / 2 = pos := by omega
            rw [hd2, swapL_getD_left (by omega) (by omega),
              swapL_getD_ne (by omega) (by omega)]
            exact heap (pos * 2 + 1) ch' (by omega) (by omega) hch' (by omega)
      · rename_i hgt
        split
        · rename_i hle
          intro i ch hni hi1 hch hchlt
          by_cases hip : i = pos
          · subst hip
            rcases hch with rfl | rfl
            · exact hle
            · exact leC_trans hc hle (leC_of_not_isGT hgt)
          · exact heap i ch hni hip hch hchlt
        · rename_i hle
          apply ih (swapL l pos (pos * 2)) (pos * 2) n hn (by omega)
            (by rw [swapL_length]; omega) (by rw [swapL_length]; omega)
          · intro i ch hni hine hch hchlt
            rw [swapL_length] at hchlt
            by_cases hip : i = pos
            · subst hip
              rw [swapL_getD_left (by omega) (by omega)]
              rcases hch with rfl | rfl
              · rw [swapL_getD_right (by omega)]
                exact leC_of_not_leC hc.toOrientedCmp hle
              · rw [swapL_getD_ne (by omega) (by omega)]
                exact leC_of_not_isGT hgt
            · rw [swapL_getD_ne hip hine]
              by_cases hchp : ch = pos
              · have hipos : i = pos / 2 := by omega
                have hnpos2 : n < pos := by omega
                obtain ⟨hn2, hup⟩ := upper hnpos2
                rw [hchp, swapL_getD_left (by omega) (by omega), hipos]
                exact hup (pos * 2) (Or.inl rfl) (by omega)
              · by_cases hchcs : ch = pos * 2
                · exfalso; omega
                · rw [swapL_getD_ne hchp hchcs]
                  exact heap i ch hni hip hch (by omega)
          · intro hncs
            refine ⟨by omega, ?_⟩
            intro ch' hch' hch'lt
            rw [swapL_length] at hch'lt
            have hd2 : pos * 2 / 2 = pos := by omega
            rw [hd2, swapL_getD_left (by omega) (by omega),
              swapL_getD_ne (by omega) (by omega)]
            exact heap (pos * 2) ch' (by omega) (by omega) hch' (by omega)
    · rename_i h1
      split
      · rename_i h2
        split
        · rename_i hle
          intro i ch hni hi1 hch hchlt
          by_cases hip : i = pos
          · subst hip
            rcases hch with rfl | rfl
            · exact hle
            · omega
          · exact heap i ch hni hip hch hchlt
        · rename_i hle
          intro i ch hni hi1 hch hchlt
          rw [swapL_length] at hchlt
          by_cases hip : i = pos
          · subst hip
            rcases hch with rfl | rfl
            · rw [swapL_getD_left (by omega) (by omega), swapL_getD_right (by omega)]
              exact leC_of_not_leC hc.toOrientedCmp hle
            · omega
          · by_cases hchp : ch = pos
            · have hipos : i = pos / 2 := by omega
              have hnpos2 : n < pos := by omega
              obtain ⟨hn2, hup⟩ := upper hnpos2
              rw [hchp, swapL_getD_left (by omega) (by omega),
                swapL_getD_ne (by omega) (by omega), hipos]
              exact hup (pos * 2) (Or.inl rfl) (by omega)
            · by_cases hchcs : ch = pos * 2
              · exfalso; omega
              · rw [swapL_getD_ne hchp hchcs, swapL_getD_ne hip (by omega)]
                exact heap i ch hni hip hch (by omega)
      · rename_i h2
        intro i ch hni hi1 hch hchlt
        by_cases hip : i = pos
        · subst hip; omega
        · exact heap i ch hni hip hch hchlt

/-! ### Derived facts about `siftDown` and `heapifyFrom` -/

theorem siftDown_length {c : Nat → Nat → Ordering} {l : List Nat} {pos : Nat}
    (h1 : 1 ≤ pos) (h2 : pos < l.length) : (siftDown c l pos).length = l.length := by
  rw [siftDown_eq_siftSwap c l pos h1 h2, siftSwap_length]

theorem siftDown_perm {c : Nat → Nat → Ordering} {l : List Nat} {pos : Nat}
    (h1 : 1 ≤ pos) (h2 : pos < l.length) : (siftDown c l pos).Perm l := by
  rw [siftDown_eq_siftSwap c l pos h1 h2]
  exact siftSwap_perm c l.length l pos h1 h2

theorem siftDown_getD_lt {c : Nat → Nat → Ordering} {l : List Nat} {pos j : Nat}
    (h1 : 1 ≤ pos) (h2 : pos < l.length) (hj : j < pos) :
    (siftDown c l pos).getD j 0 = l.getD j 0 := by
  rw [siftDown_eq_siftSwap c l pos h1 h2]
  exact siftSwap_getD_lt c l.length l pos j h1 hj

theorem siftDown_heapFrom {c : Nat → Nat → Ordering} (hc : Batteries.TransCmp c)
    {l : List Nat} {pos : Nat} (h1 : 1 ≤ pos) (h2 : pos < l.length)
    (heap : HeapFrom c l (pos + 1)) : HeapFrom c (siftDown c l pos) pos := by
  rw [siftDown_eq_siftSwap c l pos h1 h2]
  apply siftSwap_heapFrom hc l.length l pos pos h1 le_rfl h2 (by omega)
  · intro i ch hni hine hch hlt
    exact heap i ch (by omega) (by omega) hch hlt
  · intro h
    omega

theorem heapFrom_of_ge {c : Nat → Nat → Ordering} {l : List Nat} {n m : Nat}
    (h : HeapFrom c l n) (hm : n ≤ m) : HeapFrom c l m :=
  fun i ch hni hi1 hch hlt => h i ch (by omega) hi1 hch hlt

theorem heapFrom_vacuous {c : Nat → Nat → Ordering} {l : List Nat} :
    HeapFrom c l (l.length / 2 + 1) := by
  intro i ch hni hi1 hch hlt
  omega

theorem heapifyFrom_perm {c : Nat → Nat → Ordering} :
    ∀ (k : Nat) (l : List Nat), k < l.length → (heapifyFrom c k l).Perm l := by
  intro k
  induction k with
  | zero => intro l _; exact List.Perm.refl l
  | succ k ih =>
    intro l hk
    unfold heapifyFrom
    have hlen : (siftDown c l (k + 1)).length = l.length := siftDown_length (by omega) hk
    exact (ih _ (by omega)).trans (siftDown_perm (by omega) hk)

theorem heapifyFrom_length {c : Nat → Nat → Ordering} {k : Nat} {l : List Nat}
    (hk : k < l.length) : (heapifyFrom c k l).length = l.length :=
  (heapifyFrom_perm k l hk).length_eq

theorem heapifyFrom_getD_zero {c : Nat → Nat → Ordering} :
    ∀ (k : Nat) (l : List Nat), k < l.length →
      (heapifyFrom c k l).getD 0 0 = l.getD 0 0 := by
  intro k
  induction k with
  | zero => intro l _; rfl
  | succ k ih =>
    intro l hk
    unfold heapifyFrom
    have hlen : (siftDown c l (k + 1)).length = l.length := siftDown_length (by omega) hk
    rw [ih _ (by omega), siftDown_getD_lt (by omega) hk (by omega)]

theorem heapifyFrom_heapFrom {c : Nat → Nat → Ordering} (hc : Batteries.TransCmp c) :
    ∀ (k : Nat) (l : List Nat), k < l.length → HeapFrom c l (k + 1) →
      HeapFrom c (heapifyFrom c k l) 1 := by
  intro k
  induction k with
  | zero => intro l _ h; exact h
  | succ k ih =>
    intro l hk h
    unfold heapifyFrom
    have hlen : (siftDown c l (k + 1)).length = l.length := siftDown_length (by omega) hk
    apply ih _ (by omega)
    exact siftDown_heapFrom hc (by omega) hk h

/-- Index 1 is the root of the binary heap: it dominates every entry of the
heap region `[1, len)`. -/
theorem heapFrom_root_le {c : Nat → Nat → Ordering} (hc : Batteries.TransCmp c)
    {l : List Nat} (h : HeapFrom c l 1) :
    ∀ j, 1 ≤ j → j < l.length → (c (l.getD 1 0) (l.getD j 0)).isLE = true := by
  intro j
  induction j using Nat.strong_induction_on with
  | _ j ih =>
    intro hj1 hjlt
    rcases Nat.lt_or_ge j 2 with hj2 | hj2
    · have : j = 1 := by omega
      subst this
      exact leC_refl hc.toOrientedCmp _
    · have hpar : j = (j / 2) * 2 ∨ j = (j / 2) * 2 + 1 := by omega
      exact leC_trans hc (ih (j / 2) (by omega) (by omega) (by omega))
        (h (j / 2) j (by omega) (by omega) hpar hjlt)

/-! ### Engine invariant -/

/-- Validity of the pointer array (§3 storage invariant): every pointer is in
bounds and no slot is referenced twice (the bijection). -/
def ValidState (s : HeapState α) : Prop :=
  (∀ p ∈ s.ptrs, p < s.slots.length) ∧ s.ptrs.Nodup

/-- The heap ordering invariant of §3: `ptrs[1..]` is a binary min-heap and
`head(ptrs[0]) ≤ head(ptrs[1])`, together with validity. -/
def EngineInv [Inhabited α] (cmp : Cmp α) (s : HeapState α) : Prop :=
  ValidState s ∧
  HeapFrom (cmpAt cmp s.slots) s.ptrs 1 ∧
  (2 ≤ s.ptrs.length →
    (cmpAt cmp s.slots (s.ptrs.getD 0 0) (s.ptrs.getD 1 0)).isLE = true)

theorem heapFrom_of_short {c : Nat → Nat → Ordering} {l : List Nat}
    (h : l.length ≤ 2) : HeapFrom c l 1 := by
  intro i ch hni hi1 hch hlt
  omega

theorem valid_of_perm {s : HeapState α} {l : List Nat} (hv : ValidState s)
    (hp : l.Perm s.ptrs) : ValidState { s with ptrs := l } := by
  refine ⟨fun p hp2 => hv.1 p (hp.mem_iff.1 hp2), hp.nodup_iff.2 hv.2⟩

theorem heapifyStorage_slots [Inhabited α] (cmp : Cmp α) (s : HeapState α) :
    (heapifyStorage cmp s).slots = s.slots := by
  unfold heapifyStorage
  split
  · rfl
  · dsimp only
    split <;> rfl

theorem heapifyStorage_inv [Inhabited α] {cmp : Cmp α} {s : HeapState α}
    (hc : Batteries.TransCmp (cmpAt cmp s.slots)) (hv : ValidState s) :
    EngineInv cmp (heapifyStorage cmp s) := by
  unfold heapifyStorage
  split
  · rename_i hlen
    refine ⟨hv, ?_, ?_⟩
    · intro i ch hni hi1 hch hlt
      omega
    · intro h2
      omega
  · rename_i hlen
    dsimp only
    set c := cmpAt cmp s.slots with hc_def
    have hlen2 : 2 ≤ s.ptrs.length := by omega
    have hk : s.ptrs.length / 2 < s.ptrs.length := by omega
    set l₁ := heapifyFrom c (s.ptrs.length / 2) s.ptrs with hl₁
    have hperm1 : l₁.Perm s.ptrs := heapifyFrom_perm _ _ hk
    have hlen1 : l₁.length = s.ptrs.length := hperm1.length_eq
    have H1 : HeapFrom c l₁ 1 := heapifyFrom_heapFrom hc _ _ hk heapFrom_vacuous
    split
    · rename_i hgt
      set l₂ := swapL l₁ 0 1 with hl₂
      have hlen2' : l₂.length = s.ptrs.length := by
        rw [hl₂, swapL_length, hlen1]
      have hperm2 : l₂.Perm l₁ := swapL_perm (by omega) (by omega)
      have hsd_len : (siftDown c l₂ 1).length = s.ptrs.length := by
        rw [siftDown_length (by omega) (by omega), hlen2']
      have hsd_perm : (siftDown c l₂ 1).Perm l₂ := siftDown_perm (by omega) (by omega)
      have H2 : HeapFrom c l₂ 2 := by
        intro i ch hni hi1 hch hlt
        rw [hl₂, swapL_getD_ne (by omega) (by omega),
          swapL_getD_ne (by omega) (by omega)]
        exact H1 i ch (by omega) hi1 hch (by rw [hlen1]; rw [hlen2'] at hlt; exact hlt)
      have Hr : HeapFrom c (siftDown c l₂ 1) 1 := siftDown_heapFrom hc (by omega) (by omega) H2
      refine ⟨valid_of_perm hv ((hsd_perm.trans hperm2).trans hperm1), Hr, ?_⟩
      intro _
      have h0 : (siftDown c l₂ 1).getD 0 0 = l₁.getD 1 0 := by
        rw [siftDown_getD_lt (by omega) (by omega) (by omega), hl₂,
          swapL_getD_left (by omega) (by omega)]
      rw [h0]
      have hmem : (siftDown c l₂ 1).getD 1 0 ∈ l₂ :=
        hsd_perm.mem_iff.1 (getD_mem (by omega))
      have hall : ∀ y ∈ l₂, (c (l₁.getD 1 0) y).isLE = true := by
        intro y hy
        have hy1 : y ∈ l₁ := hperm2.mem_iff.1 hy
        obtain ⟨k, hk2, hkeq⟩ := List.mem_iff_getElem.1 hy1
        rcases Nat.eq_zero_or_pos k with rfl | hkpos
        · rw [← hkeq, ← List.getD_eq_getElem l₁ 0 hk2]
          exact leC_of_isGT hc.toOrientedCmp hgt
        · rw [← hkeq, ← List.getD_eq_getElem l₁ 0 hk2]
          exact heapFrom_root_le hc H1 k hkpos hk2
      exact hall _ hmem
    · rename_i hgt
      refine ⟨valid_of_perm hv hperm1, H1, ?_⟩
      intro _
      exact leC_of_not_isGT hgt

theorem getD_cons2 (a b : Nat) (t : List Nat) (i : Nat) :
    (a :: b :: t).getD (i + 2) 0 = t.getD i 0 := by
  simp [List.getD_cons_succ]

theorem getD_dropLast {l : List Nat} {j : Nat} (h : j + 1 < l.length) :
    l.dropLast.getD j 0 = l.getD j 0 := by
  have h1 : j < l.dropLast.length := by simp; omega
  rw [List.getD_eq_getElem _ 0 h1, List.getD_eq_getElem _ 0 (by omega),
    List.getElem_dropLast]

theorem getLast_cons_dropLast_perm (l : List Nat) (h : l ≠ []) :
    (l.getLast h :: l.dropLast).Perm l := by
  conv_rhs => rw [← List.dropLast_append_getLast h]
  simpa using @List.perm_append_comm Nat [l.getLast h] l.dropLast

theorem engineInv_min [Inhabited α] {cmp : Cmp α} {s : HeapState α}
    (hc : Batteries.TransCmp (cmpAt cmp s.slots)) (h : EngineInv cmp s) :
    ∀ j, j < s.ptrs.length →
      (cmpAt cmp s.slots (s.ptrs.getD 0 0) (s.ptrs.getD j 0)).isLE = true := by
  obtain ⟨hv, Hheap, Htop⟩ := h
  intro j hj
  rcases Nat.eq_zero_or_pos j with rfl | hjpos
  · exact leC_refl hc.toOrientedCmp _
  · exact leC_trans hc (Htop (by omega)) (heapFrom_root_le hc Hheap j (by omega) hj)

theorem popFrontItem_inv [Inhabited α] {cmp : Cmp α} {s : HeapState α}
    (hc : ∀ sl : List (PeekIter α), Batteries.TransCmp (cmpAt cmp sl))
    (h : EngineInv cmp s) : EngineInv cmp (popFrontItem cmp s).2 := by
  obtain ⟨slots, ptrs⟩ := s
  obtain ⟨⟨hb, hnd⟩, Hheap, Htop⟩ := h
  simp only at hb hnd Hheap Htop
  match ptrs with
  | [] =>
    exact ⟨⟨hb, hnd⟩, Hheap, Htop⟩
  | [p] =>
    simp only [popFrontItem]
    cases hadv : (slots.getD p default).advance with
    | none =>
      refine ⟨⟨by simp, by simp⟩, heapFrom_of_short (by simp), by simp⟩
    | some pair =>
      obtain ⟨x, slot'⟩ := pair
      dsimp only
      refine ⟨⟨?_, by simpa using hnd⟩, heapFrom_of_short (by simp), by simp⟩
      intro t ht
      simp only at ht ⊢
      rw [List.length_set]
      exact hb t ht
  | [p, q] =>
    simp only [popFrontItem]
    cases hadv : (slots.getD p default).advance with
    | none =>
      refine ⟨⟨?_, by simpa using List.Nodup.of_cons hnd⟩,
        heapFrom_of_short (by simp), by simp⟩
      intro t ht
      exact hb t (by simp at ht ⊢; omega)
    | some pair =>
      obtain ⟨x, slot'⟩ := pair
      dsimp only
      have hbnd : ∀ t ∈ [p, q], t < (slots.set p slot').length := by
        intro t ht
        rw [List.length_set]
        exact hb t ht
      split
      · rename_i hgt
        refine ⟨⟨fun t ht => hbnd t (by simp at ht ⊢; tauto), by
          have := hnd; simp [List.nodup_cons] at this ⊢; tauto⟩,
          heapFrom_of_short (by simp), fun _ => ?_⟩
        simpa using leC_of_isGT (hc (slots.set p slot')).toOrientedCmp hgt
      · rename_i hgt
        refine ⟨⟨hbnd, hnd⟩, heapFrom_of_short (by simp), fun _ => ?_⟩
        simpa using leC_of_not_isGT hgt
  | p :: q :: r :: rs =>
    have hnd' := hnd
    simp only [List.nodup_cons, List.mem_cons, not_or] at hnd'
    obtain ⟨⟨hpq, hpr, hprs⟩, ⟨hqr, hqrs⟩, hnd3⟩ := hnd'
    have hnp : p ∉ r :: rs := by
      simp only [List.mem_cons, not_or]
      exact ⟨hpr, hprs⟩
    have hroot : ∀ y ∈ r :: rs, (cmpAt cmp slots q y).isLE = true := by
      intro y hy
      obtain ⟨k, hk, rfl⟩ := List.mem_iff_getElem.1 hy
      have e1 : (p :: q :: r :: rs).getD (k + 2) 0 = (r :: rs)[k] := by
        rw [getD_cons2, List.getD_eq_getElem _ 0 hk]
      have e2 : q = (p :: q :: r :: rs).getD 1 0 := rfl
      rw [e2, ← e1]
      exact heapFrom_root_le (hc slots) Hheap (k + 2) (by omega) (by simp at hk ⊢; omega)
    simp only [popFrontItem]
    cases hadv : (slots.getD p default).advance with
    | none =>
      have hlast : ((r :: rs).getLast (List.cons_ne_nil r rs) :: (r :: rs).dropLast).Perm
          (r :: rs) :=
        getLast_cons_dropLast_perm (r :: rs) (List.cons_ne_nil r rs)
      dsimp only
      set l₁ := q :: (r :: rs).getLast (List.cons_ne_nil r rs) :: (r :: rs).dropLast with hl₁
      have hl₁len : l₁.length = rs.length + 2 := by
        rw [hl₁]
        simp
      have hl₁perm : l₁.Perm (q :: r :: rs) := List.Perm.cons q hlast
      have hsd_perm : (siftDown (cmpAt cmp slots) l₁ 1).Perm l₁ :=
        siftDown_perm (by omega) (by omega)
      have hsd_len : (siftDown (cmpAt cmp slots) l₁ 1).length = l₁.length :=
        siftDown_length (by omega) (by omega)
      have H2 : HeapFrom (cmpAt cmp slots) l₁ 2 := by
        intro i ch hni hi1 hch hchlt
        rw [hl₁len] at hchlt
        obtain ⟨i', rfl⟩ : ∃ i', i = i' + 2 := ⟨i - 2, by omega⟩
        obtain ⟨ch', rfl⟩ : ∃ ch', ch = ch' + 2 := ⟨ch - 2, by omega⟩
        rw [hl₁, getD_cons2, getD_cons2,
          getD_dropLast (by simp; omega), getD_dropLast (by simp; omega),
          ← getD_cons2 p q, ← getD_cons2 p q]
        exact Hheap (i' + 2) (ch' + 2) (by omega) (by omega) (by omega) (by simp; omega)
      have Hr : HeapFrom (cmpAt cmp slots) (siftDown (cmpAt cmp slots) l₁ 1) 1 :=
        siftDown_heapFrom (hc slots) (by omega) (by omega) H2
      refine ⟨⟨?_, ?_⟩, Hr, fun _ => ?_⟩
      · intro t ht
        simp only at ht
        have hm : t ∈ q :: r :: rs := hl₁perm.mem_iff.1 (hsd_perm.mem_iff.1 ht)
        exact hb t (by simp at hm ⊢; tauto)
      · simp only
        apply (hsd_perm.trans hl₁perm).nodup_iff.2
        simp only [List.nodup_cons, List.mem_cons, not_or]
        exact ⟨⟨hqr, hqrs⟩, hnd3⟩
      · simp only
        have h0 : (siftDown (cmpAt cmp slots) l₁ 1).getD 0 0 = q := by
          rw [siftDown_getD_lt (by omega) (by omega) (by omega), hl₁]
          rfl
        rw [h0]
        have hmem : (siftDown (cmpAt cmp slots) l₁ 1).getD 1 0 ∈ q :: r :: rs :=
          hl₁perm.mem_iff.1 (hsd_perm.mem_iff.1 (getD_mem (by omega)))
        rcases List.mem_cons.1 hmem with hq2 | hmem2
        · rw [hq2]
          exact leC_refl (hc slots).toOrientedCmp _
        · exact hroot _ hmem2
    | some pair =>
      obtain ⟨x, slot'⟩ := pair
      dsimp only
      have hbnd : ∀ t ∈ p :: q :: r :: rs, t < (slots.set p slot').length := by
        intro t ht
        rw [List.length_set]
        exact hb t ht
      have hcmp_eq : ∀ a b : Nat, a ≠ p → b ≠ p →
          cmpAt cmp (slots.set p slot') a b = cmpAt cmp slots a b := by
        intro a b ha hb2
        exact cmpAt_set_ne ha hb2
      split
      · rename_i hgt
        have hsd_perm : (siftDown (cmpAt cmp (slots.set p slot')) (q :: p :: r :: rs) 1).Perm
            (q :: p :: r :: rs) := siftDown_perm (by omega) (by simp)
        have hsd_len : (siftDown (cmpAt cmp (slots.set p slot')) (q :: p :: r :: rs) 1).length
            = (q :: p :: r :: rs).length := siftDown_length (by omega) (by simp)
        have hl₁perm : (q :: p :: r :: rs).Perm (p :: q :: r :: rs) :=
          List.Perm.swap p q (r :: rs)
        have H2 : HeapFrom (cmpAt cmp (slots.set p slot')) (q :: p :: r :: rs) 2 := by
          intro i ch hni hi1 hch hchlt
          simp only [List.length_cons] at hchlt
          obtain ⟨i', rfl⟩ : ∃ i', i = i' + 2 := ⟨i - 2, by omega⟩
          obtain ⟨ch', rfl⟩ : ∃ ch', ch = ch' + 2 := ⟨ch - 2, by omega⟩
          rw [getD_cons2, getD_cons2]
          have hmi : (r :: rs).getD i' 0 ∈ r :: rs := getD_mem (by simp; omega)
          have hmch : (r :: rs).getD ch' 0 ∈ r :: rs := getD_mem (by simp; omega)
          rw [hcmp_eq _ _ (fun he => hnp (he ▸ hmi)) (fun he => hnp (he ▸ hmch)),
            ← getD_cons2 p q, ← getD_cons2 p q]
          exact Hheap (i' + 2) (ch' + 2) (by omega) (by omega) (by omega) (by simp; omega)
        have Hr : HeapFrom (cmpAt cmp (slots.set p slot'))
            (siftDown (cmpAt cmp (slots.set p slot')) (q :: p :: r :: rs) 1) 1 :=
          siftDown_heapFrom (hc (slots.set p slot')) (by omega) (by simp) H2
        refine ⟨⟨?_, ?_⟩, Hr, fun _ => ?_⟩
        · intro t ht
          simp only at ht
          exact hbnd t (hl₁perm.mem_iff.1 (hsd_perm.mem_iff.1 ht))
        · simp only
          exact (hsd_perm.trans hl₁perm).nodup_iff.2 hnd
        · simp only
          have h0 : (siftDown (cmpAt cmp (slots.set p slot')) (q :: p :: r :: rs) 1).getD 0 0
              = q := by
            rw [siftDown_getD_lt (by omega) (by simp) (by omega)]
            rfl
          rw [h0]
          have hmem : (siftDown (cmpAt cmp (slots.set p slot')) (q :: p :: r :: rs) 1).getD 1 0
              ∈ q :: p :: r :: rs := hsd_perm.mem_iff.1 (getD_mem (by rw [hsd_len]; simp))
          rcases List.mem_cons.1 hmem with hq2 | hmem1
          · rw [hq2]
            exact leC_refl (hc _).toOrientedCmp _
          · rcases List.mem_cons.1 hmem1 with hp2 | hmem2
            · rw [hp2]
              exact leC_of_isGT (hc _).toOrientedCmp hgt
            · rw [hcmp_eq _ _ (Ne.symm hpq) (fun he => hnp (he ▸ hmem2))]
              exact hroot _ hmem2
      · rename_i hgt
        refine ⟨⟨hbnd, hnd⟩, ?_, fun _ => ?_⟩
        · intro i ch hni hi1 hch hchlt
          simp only [List.length_cons] at hchlt
          obtain ⟨i', rfl⟩ : ∃ i', i = i' + 1 := ⟨i - 1, by omega⟩
          obtain ⟨ch', rfl⟩ : ∃ ch', ch = ch' + 1 := ⟨ch - 1, by omega⟩
          simp only [List.getD_cons_succ]
          have hnpq : p ∉ q :: r :: rs := by
            simp only [List.mem_cons, not_or]
            exact ⟨hpq, hpr, hprs⟩
          have hmi : (q :: r :: rs).getD i' 0 ∈ q :: r :: rs := getD_mem (by simp; omega)
          have hmch : (q :: r :: rs).getD ch' 0 ∈ q :: r :: rs := getD_mem (by simp; omega)
          rw [hcmp_eq _ _ (fun he => hnpq (he ▸ hmi)) (fun he => hnpq (he ▸ hmch))]
          have := Hheap (i' + 1) (ch' + 1) (by omega) (by omega) (by omega) (by simp; omega)
          simpa using this
        · simpa using leC_of_not_isGT hgt

theorem advance_some_item {pk : PeekIter α} {x : α} {pk' : PeekIter α}
    (h : pk.advance = some (x, pk')) : x = pk.item := by
  obtain ⟨it, iter⟩ := pk
  cases iter <;> simp [PeekIter.advance] at h
  exact h.1.symm

/-- Whenever the heap is non-empty, `pop_front_item` emits exactly the head of
the slot pointed to by `ptrs[0]` (before any advancing). -/
theorem popFrontItem_fst [Inhabited α] (cmp : Cmp α) (s : HeapState α) (h : s.ptrs ≠ []) :
    (popFrontItem cmp s).1 = some ((s.slots.getD (s.ptrs.getD 0 0) default).item) := by
  obtain ⟨slots, ptrs⟩ := s
  match ptrs with
  | [] => exact absurd rfl h
  | [p] =>
    simp only [popFrontItem]
    cases hadv : (slots.getD p default).advance with
    | none => rfl
    | some pair =>
      obtain ⟨x, slot'⟩ := pair
      dsimp only
      rw [advance_some_item hadv]
      rfl
  | [p, q] =>
    simp only [popFrontItem]
    cases hadv : (slots.getD p default).advance with
    | none => rfl
    | some pair =>
      obtain ⟨x, slot'⟩ := pair
      dsimp only
      rw [advance_some_item hadv]
      split <;> rfl
  | p :: q :: r :: rs =>
    simp only [popFrontItem]
    cases hadv : (slots.getD p default).advance with
    | none => rfl
    | some pair =>
      obtain ⟨x, slot'⟩ := pair
      dsimp only
      rw [advance_some_item hadv]
      split <;> rfl

theorem mkState_valid (inputs : List (List α)) : ValidState (mkState inputs) := by
  constructor
  · intro p hp
    simp only [mkState] at hp ⊢
    exact List.mem_range.1 hp
  · simp only [mkState]
    exact List.nodup_range _

theorem buildMerge_inv [Inhabited α] {cmp : Cmp α}
    (hc : ∀ sl : List (PeekIter α), Batteries.TransCmp (cmpAt cmp sl))
    (inputs : List (List α)) : EngineInv cmp (buildMerge cmp inputs) :=
  heapifyStorage_inv (hc _) (mkState_valid inputs)

theorem stepN_inv [Inhabited α] {cmp : Cmp α}
    (hc : ∀ sl : List (PeekIter α), Batteries.TransCmp (cmpAt cmp sl)) :
    ∀ (k : Nat) (s : HeapState α), EngineInv cmp s → EngineInv cmp (stepN cmp k s) := by
  intro k
  induction k with
  | zero => intro s h; exact h
  | succ k ih =>
    intro s h
    exact ih _ (popFrontItem_inv hc h)

theorem engineInv_min_mem [Inhabited α] {cmp : Cmp α} {s : HeapState α}
    (hc : Batteries.TransCmp (cmpAt cmp s.slots)) (h : EngineInv cmp s) :
    ∀ q ∈ s.ptrs, (cmpAt cmp s.slots (s.ptrs.getD 0 0) q).isLE = true := by
  intro q hq
  obtain ⟨j, hj, rfl⟩ := List.mem_iff_getElem.1 hq
  rw [← List.getD_eq_getElem _ 0 hj]
  exact engineInv_min hc h j hj

/-! ### Multiset accounting (no assumption on the comparator) -/

theorem advance_some {pk : PeekIter α} {x : α} {pk' : PeekIter α}
    (h : pk.advance = some (x, pk')) : x = pk.item ∧ pk.iter = pk'.item :: pk'.iter := by
  obtain ⟨it, iter⟩ := pk
  cases iter <;> simp [PeekIter.advance] at h
  obtain ⟨h1, h2⟩ := h
  subst h2
  exact ⟨h1.symm, rfl⟩

theorem advance_none {pk : PeekIter α} (h : pk.advance = none) : pk.iter = [] := by
  obtain ⟨it, iter⟩ := pk
  cases iter <;> simp [PeekIter.advance] at h ⊢

/-- Multiset of all elements held by the slots referenced from `ptrs`: each
live slot contributes its head plus its remaining iterator. -/
def bagL [Inhabited α] (slots : List (PeekIter α)) (ptrs : List Nat) : Multiset α :=
  (ptrs.map fun p =>
    (slots.getD p default).item ::ₘ ((slots.getD p default).iter : Multiset α)).sum

/-- Multiset of all elements held by a state. -/
def bagOf [Inhabited α] (s : HeapState α) : Multiset α :=
  bagL s.slots s.ptrs

theorem bagL_nil [Inhabited α] (slots : List (PeekIter α)) : bagL slots [] = 0 := rfl

theorem bagL_cons [Inhabited α] (slots : List (PeekIter α)) (p : Nat) (t : List Nat) :
    bagL slots (p :: t) =
      ((slots.getD p default).item ::ₘ ((slots.getD p default).iter : Multiset α))
        + bagL slots t := by
  simp [bagL]

theorem bagL_perm [Inhabited α] (slots : List (PeekIter α)) {l₁ l₂ : List Nat}
    (h : l₁.Perm l₂) : bagL slots l₁ = bagL slots l₂ :=
  List.Perm.sum_eq (h.map _)

theorem bagL_set_not_mem [Inhabited α] {slots : List (PeekIter α)} {p : Nat}
    {w : PeekIter α} {ptrs : List Nat} (h : p ∉ ptrs) :
    bagL (slots.set p w) ptrs = bagL slots ptrs := by
  unfold bagL
  congr 1
  apply List.map_congr_left
  intro q hq
  rw [slots_getD_set_ne (fun he => h (by rw [he]; exact hq))]

theorem totalCount_eq_card [Inhabited α] (s : HeapState α) :
    totalCount s = (bagOf s).card := by
  obtain ⟨slots, ptrs⟩ := s
  unfold totalCount bagOf
  induction ptrs with
  | nil => rfl
  | cons p t ih =>
    rw [bagL_cons]
    simp only [List.map_cons, List.sum_cons, Multiset.card_add, Multiset.card_cons,
      Multiset.coe_card] at ih ⊢
    omega

theorem popFrontItem_valid [Inhabited α] (cmp : Cmp α) {s : HeapState α}
    (hv : ValidState s) : ValidState (popFrontItem cmp s).2 := by
  obtain ⟨slots, ptrs⟩ := s
  obtain ⟨hb, hnd⟩ := hv
  simp only at hb hnd
  match ptrs with
  | [] => exact ⟨hb, hnd⟩
  | [p] =>
    simp only [popFrontItem]
    cases hadv : (slots.getD p default).advance with
    | none => exact ⟨by simp, by simp⟩
    | some pair =>
      obtain ⟨x, slot'⟩ := pair
      dsimp only
      refine ⟨?_, hnd⟩
      intro t ht
      simp only at ht
      rw [List.length_set]
      exact hb t ht
  | [p, q] =>
    simp only [popFrontItem]
    cases hadv : (slots.getD p default).advance with
    | none =>
      refine ⟨?_, by simpa using List.Nodup.of_cons hnd⟩
      intro t ht
      exact hb t (by simp at ht ⊢; omega)
    | some pair =>
      obtain ⟨x, slot'⟩ := pair
      dsimp only
      split
      · refine ⟨?_, ?_⟩
        · intro t ht
          simp only at ht
          rw [List.length_set]
          exact hb t (by simp at ht ⊢; tauto)
        · simp only [List.nodup_cons, List.mem_singleton, List.not_mem_nil] at hnd ⊢
          tauto
      · refine ⟨?_, hnd⟩
        intro t ht
        simp only at ht
        rw [List.length_set]
        exact hb t ht
  | p :: q :: r :: rs =>
    simp only [popFrontItem]
    cases hadv : (slots.getD p default).advance with
    | none =>
      have hlast : ((r :: rs).getLast (List.cons_ne_nil r rs) :: (r :: rs).dropLast).Perm
          (r :: rs) :=
        getLast_cons_dropLast_perm (r :: rs) (List.cons_ne_nil r rs)
      dsimp only
      have hl₁len : (q :: (r :: rs).getLast (List.cons_ne_nil r rs)
          :: (r :: rs).dropLast).length = rs.length + 2 := by simp
      have hperm : (siftDown (cmpAt cmp slots)
          (q :: (r :: rs).getLast (List.cons_ne_nil r rs) :: (r :: rs).dropLast) 1).Perm
          (q :: r :: rs) :=
        (siftDown_perm (by omega) (by omega)).trans (List.Perm.cons q hlast)
      refine ⟨?_, ?_⟩
      · intro t ht
        simp only at ht
        have hm : t ∈ q :: r :: rs := hperm.mem_iff.1 ht
        exact hb t (by simp at hm ⊢; tauto)
      · simp only
        exact hperm.nodup_iff.2 (List.Nodup.of_cons hnd)
    | some pair =>
      obtain ⟨x, slot'⟩ := pair
      dsimp only
      split
      · have hperm : (siftDown (cmpAt cmp (slots.set p slot')) (q :: p :: r :: rs) 1).Perm
            (p :: q :: r :: rs) :=
          (siftDown_perm (by omega) (by simp)).trans (List.Perm.swap p q (r :: rs))
        refine ⟨?_, ?_⟩
        · intro t ht
          simp only at ht
          rw [List.length_set]
          exact hb t (hperm.mem_iff.1 ht)
        · simp only
          exact hperm.nodup_iff.2 hnd
      · refine ⟨?_, hnd⟩
        intro t ht
        simp only at ht
        rw [List.length_set]
        exact hb t ht

theorem popFrontItem_of_nil [Inhabited α] (cmp : Cmp α) {s : HeapState α}
    (h : s.ptrs = []) : popFrontItem cmp s = (none, s) := by
  obtain ⟨slots, ptrs⟩ := s
  simp only at h
  subst h
  rfl

theorem popFrontItem_fst_none [Inhabited α] {cmp : Cmp α} {s : HeapState α}
    (h : (popFrontItem cmp s).1 = none) : s.ptrs = [] := by
  by_contra hne
  rw [popFrontItem_fst cmp s hne] at h
  exact absurd h (by simp)

theorem popFrontItem_bag [Inhabited α] (cmp : Cmp α) {s : HeapState α} (hv : ValidState s)
    {v : α} {s' : HeapState α} (h : popFrontItem cmp s = (some v, s')) :
    bagOf s = v ::ₘ bagOf s' := by
  obtain ⟨slots, ptrs⟩ := s
  obtain ⟨hb, hnd⟩ := hv
  simp only at hb hnd
  match ptrs with
  | [] => exact absurd (congrArg Prod.fst h) (by simp [popFrontItem])
  | [p] =>
    have hp : p < slots.length := hb p (by simp)
    simp only [popFrontItem] at h
    cases hadv : (slots.getD p default).advance with
    | none =>
      rw [hadv] at h
      simp only [Prod.mk.injEq, Option.some.injEq] at h
      obtain ⟨rfl, rfl⟩ := h
      simp only [bagOf, bagL_cons, bagL_nil]
      rw [advance_none hadv]
      simp
    | some pair =>
      obtain ⟨x, slot'⟩ := pair
      rw [hadv] at h
      simp only [Prod.mk.injEq, Option.some.injEq] at h
      obtain ⟨rfl, rfl⟩ := h
      obtain ⟨rfl, hiter⟩ := advance_some hadv
      simp only [bagOf, bagL_cons, bagL_nil]
      rw [slots_getD_set_self hp, hiter]
      simp [← Multiset.cons_coe, Multiset.cons_add]
  | [p, q] =>
    have hp : p < slots.length := hb p (by simp)
    have hpq : p ≠ q := by
      simp [List.nodup_cons] at hnd
      tauto
    simp only [popFrontItem] at h
    cases hadv : (slots.getD p default).advance with
    | none =>
      rw [hadv] at h
      simp only [Prod.mk.injEq, Option.some.injEq] at h
      obtain ⟨rfl, rfl⟩ := h
      simp only [bagOf, bagL_cons, bagL_nil]
      rw [advance_none hadv]
      simp
    | some pair =>
      obtain ⟨x, slot'⟩ := pair
      rw [hadv] at h
      dsimp only at h
      obtain ⟨rfl, hiter⟩ := advance_some hadv
      have hbq : bagL (slots.set p slot') [q, p] = bagL (slots.set p slot') [p, q] :=
        bagL_perm _ (List.Perm.swap p q [])
      have hbag : bagL (slots.set p slot') [p, q] =
          (slot'.item ::ₘ (slot'.iter : Multiset α)) + bagL slots [q] := by
        rw [bagL_cons, slots_getD_set_self hp,
          bagL_set_not_mem (by simpa using hpq)]
      split at h <;>
        simp only [Prod.mk.injEq, Option.some.injEq] at h <;>
        obtain ⟨rfl, rfl⟩ := h
      · rw [bagOf, bagOf]
        dsimp only
        rw [hbq, hbag, bagL_cons, hiter]
        simp [← Multiset.cons_coe, Multiset.cons_add]
      · rw [bagOf, bagOf]
        dsimp only
        rw [hbag, bagL_cons, hiter]
        simp [← Multiset.cons_coe, Multiset.cons_add]
  | p :: q :: r :: rs =>
    have hp : p < slots.length := hb p (by simp)
    have hnp : p ∉ q :: r :: rs := by
      simp only [List.nodup_cons] at hnd
      exact hnd.1
    simp only [popFrontItem] at h
    cases hadv : (slots.getD p default).advance with
    | none =>
      rw [hadv] at h
      dsimp only at h
      simp only [Prod.mk.injEq, Option.some.injEq] at h
      obtain ⟨rfl, rfl⟩ := h
      have hlast : ((r :: rs).getLast (List.cons_ne_nil r rs) :: (r :: rs).dropLast).Perm
          (r :: rs) :=
        getLast_cons_dropLast_perm (r :: rs) (List.cons_ne_nil r rs)
      have hl₁len : (q :: (r :: rs).getLast (List.cons_ne_nil r rs)
          :: (r :: rs).dropLast).length = rs.length + 2 := by simp
      have hperm : (siftDown (cmpAt cmp slots)
          (q :: (r :: rs).getLast (List.cons_ne_nil r rs) :: (r :: rs).dropLast) 1).Perm
          (q :: r :: rs) :=
        (siftDown_perm (by omega) (by omega)).trans (List.Perm.cons q hlast)
      rw [bagOf, bagOf]
      dsimp only
      rw [bagL_perm slots hperm, bagL_cons, advance_none hadv]
      simp
    | some pair =>
      obtain ⟨x, slot'⟩ := pair
      rw [hadv] at h
      dsimp only at h
      obtain ⟨rfl, hiter⟩ := advance_some hadv
      have hbag : bagL (slots.set p slot') (p :: q :: r :: rs) =
          (slot'.item ::ₘ (slot'.iter : Multiset α)) + bagL slots (q :: r :: rs) := by
        rw [bagL_cons, slots_getD_set_self hp, bagL_set_not_mem hnp]
      split at h <;>
        simp only [Prod.mk.injEq, Option.some.injEq] at h <;>
        obtain ⟨rfl, rfl⟩ := h
      · have hperm : (siftDown (cmpAt cmp (slots.set p slot')) (q :: p :: r :: rs) 1).Perm
            (p :: q :: r :: rs) :=
          (siftDown_perm (by omega) (by simp)).trans (List.Perm.swap p q (r :: rs))
        rw [bagOf, bagOf]
        dsimp only
        rw [bagL_perm _ hperm, hbag, bagL_cons, hiter]
        simp [← Multiset.cons_coe, Multiset.cons_add]
      · rw [bagOf, bagOf]
        dsimp only
        rw [hbag, bagL_cons, hiter]
        simp [← Multiset.cons_coe, Multiset.cons_add]

theorem runPop_bag [Inhabited α] (cmp : Cmp α) :
    ∀ (fuel : Nat) (s : HeapState α), ValidState s → (bagOf s).card ≤ fuel →
      (↑(runPop cmp fuel s) : Multiset α) = bagOf s := by
  intro fuel
  induction fuel with
  | zero =>
    intro s hv hcard
    have h0 : bagOf s = 0 := Multiset.card_eq_zero.1 (by omega)
    simp [runPop, h0]
  | succ fuel ih =>
    intro s hv hcard
    unfold runPop
    cases hpop : popFrontItem cmp s with
    | mk opt s₂ =>
      cases opt with
      | none =>
        have hnil : s.ptrs = [] := popFrontItem_fst_none (by rw [hpop])
        have h0 : bagOf s = 0 := by
          obtain ⟨slots, ptrs⟩ := s
          simp only at hnil
          subst hnil
          rfl
        simp [h0]
      | some v =>
        have hbag := popFrontItem_bag cmp hv hpop
        have hv2 : ValidState s₂ := by
          have hval := popFrontItem_valid cmp hv (s := s)
          rw [hpop] at hval
          exact hval
        have hcard2 : (bagOf s₂).card ≤ fuel := by
          have hcc := congrArg Multiset.card hbag
          simp only [Multiset.card_cons] at hcc
          omega
        rw [hbag, ← Multiset.cons_coe, ih _ hv2 hcard2]

theorem range_map_getD [Inhabited α] (slots : List (PeekIter α)) (g : PeekIter α → Multiset α) :
    ((List.range slots.length).map fun i => g (slots.getD i default)) = slots.map g := by
  apply List.ext_getElem
  · simp
  · intro n h1 h2
    simp only [List.getElem_map, List.getElem_range]
    rw [List.getD_eq_getElem _ _ (by simpa using h2)]

theorem filterMap_bag [Inhabited α] (inputs : List (List α)) :
    ((inputs.filterMap newFromIter).map
      (fun sl => sl.item ::ₘ (sl.iter : Multiset α))).sum
    = (inputs.map fun l => (↑l : Multiset α)).sum := by
  induction inputs with
  | nil => rfl
  | cons l rest ih =>
    cases l with
    | nil => simpa [newFromIter] using ih
    | cons x t =>
      simp only [List.filterMap_cons, newFromIter, List.map_cons, List.sum_cons, ih]
      rw [Multiset.cons_coe]
      simp

theorem bagOf_mkState [Inhabited α] (inputs : List (List α)) :
    bagOf (mkState inputs) = (inputs.map fun l => (↑l : Multiset α)).sum := by
  unfold bagOf mkState bagL
  dsimp only
  rw [range_map_getD (inputs.filterMap newFromIter)
    (fun sl => sl.item ::ₘ (sl.iter : Multiset α))]
  exact filterMap_bag inputs

theorem heapifyStorage_ptrs_perm [Inhabited α] (cmp : Cmp α) (s : HeapState α) :
    (heapifyStorage cmp s).ptrs.Perm s.ptrs := by
  unfold heapifyStorage
  split
  · exact List.Perm.refl _
  · rename_i hlen
    dsimp only
    have hk : s.ptrs.length / 2 < s.ptrs.length := by omega
    have h1 : (heapifyFrom (cmpAt cmp s.slots) (s.ptrs.length / 2) s.ptrs).Perm s.ptrs :=
      heapifyFrom_perm _ _ hk
    have hlen1 := h1.length_eq
    split
    · exact ((siftDown_perm (by omega) (by rw [swapL_length]; omega)).trans
        (swapL_perm (by omega) (by omega))).trans h1
    · exact h1

theorem heapifyStorage_bag [Inhabited α] (cmp : Cmp α) (s : HeapState α) :
    bagOf (heapifyStorage cmp s) = bagOf s := by
  unfold bagOf
  rw [heapifyStorage_slots]
  exact bagL_perm _ (heapifyStorage_ptrs_perm cmp s)

theorem heapifyStorage_valid [Inhabited α] (cmp : Cmp α) {s : HeapState α}
    (hv : ValidState s) : ValidState (heapifyStorage cmp s) := by
  constructor
  · intro p hp
    rw [heapifyStorage_slots]
    exact hv.1 p ((heapifyStorage_ptrs_perm cmp s).mem_iff.1 hp)
  · exact (heapifyStorage_ptrs_perm cmp s).nodup_iff.2 hv.2

/-! ### Lawfulness of the supplied comparators -/

theorem transCmp_pullback {β : Type} {c : β → β → Ordering} (hc : Batteries.TransCmp c)
    (f : Nat → β) : Batteries.TransCmp (fun x y => c (f x) (f y)) where
  symm x y := hc.symm (f x) (f y)
  le_trans h1 h2 := hc.le_trans h1 h2

/-- The composed default comparator `Chain<ByOrd, InsertionOrder>` induces a
consistent total ordering at every storage (for any linearly ordered item
type): values lexicographically refined by slot addresses. -/
theorem transCmp_cmpAt_default [Inhabited α] [LinearOrder α]
    (slots : List (PeekIter α)) : Batteries.TransCmp (cmpAt (defaultC) slots) := by
  have he : cmpAt (defaultC (α := α)) slots =
      compareLex (compareOn fun p => (slots.getD p default).item) (compareOn id) := rfl
  rw [he]
  infer_instance

/-- Any lawful primary comparator chained with the insertion-order tie-breaker
induces a consistent total ordering at every storage. -/
theorem transCmp_cmpAt_chain_ins [Inhabited α] {c₁ : α → α → Ordering}
    (hc : Batteries.TransCmp c₁) (slots : List (PeekIter α)) :
    Batteries.TransCmp (cmpAt (chainC (liftC c₁) insOrdC) slots) := by
  have he : cmpAt (chainC (liftC c₁) insOrdC) slots =
      compareLex (fun p q => c₁ (slots.getD p default).item (slots.getD q default).item)
        (compareOn id) := rfl
  rw [he]
  haveI := transCmp_pullback hc (fun p => (slots.getD p default).item)
  infer_instance

/-! ### Claim theorems -/

/-- C1. For every collection of input iterators and every comparator, the
multiset of elements emitted by repeatedly calling `next`
(`pop_front_item`) until absence equals the multiset-union of the inputs:
nothing is lost, duplicated, or invented. (The fuel `totalCount` is exactly
the number of elements initially held, and the equality of multisets shows
the run also drains the engine completely.) -/
theorem c1_permutation [Inhabited α] (cmp : Cmp α) (inputs : List (List α)) :
    (↑(runPop cmp (totalCount (buildMerge cmp inputs)) (buildMerge cmp inputs)) : Multiset α)
      = (inputs.map fun l => (↑l : Multiset α)).sum := by
  have hv : ValidState (buildMerge cmp inputs) :=
    heapifyStorage_valid cmp (mkState_valid inputs)
  rw [runPop_bag cmp _ _ hv (le_of_eq (totalCount_eq_card _).symm)]
  show bagOf (heapifyStorage cmp (mkState inputs)) = _
  rw [heapifyStorage_bag, bagOf_mkState]

/-- C2. At every reachable state of the merge iterator (any number of `next`
calls after `build`), if the engine is non-empty then the next `pop_front_item`
emits exactly the head that `ptrs[0]` dereferences to, and that head is
minimal under the composed comparator against the heads of all live inputs:
`C(v, head(Iq))` is `Less` or `Equal` for every live pointer `q`. The
hypothesis is that the composed comparator is a consistent total ordering
(`TransCmp`) in every storage state, as the library requires. -/
theorem c2_local_minimality [Inhabited α] (cmp : Cmp α)
    (hc : ∀ sl : List (PeekIter α), Batteries.TransCmp (cmpAt cmp sl))
    (inputs : List (List α)) (k : Nat)
    (hne : (stepN cmp k (buildMerge cmp inputs)).ptrs ≠ []) :
    (popFrontItem cmp (stepN cmp k (buildMerge cmp inputs))).1 =
      some (((stepN cmp k (buildMerge cmp inputs)).slots.getD
        ((stepN cmp k (buildMerge cmp inputs)).ptrs.getD 0 0) default).item) ∧
    ∀ q ∈ (stepN cmp k (buildMerge cmp inputs)).ptrs,
      (cmpAt cmp (stepN cmp k (buildMerge cmp inputs)).slots
        ((stepN cmp k (buildMerge cmp inputs)).ptrs.getD 0 0) q).isLE = true := by
  have hinv := stepN_inv hc k _ (buildMerge_inv hc inputs)
  exact ⟨popFrontItem_fst cmp _ hne, engineInv_min_mem (hc _) hinv⟩

/-- Witness for C2 at a concrete input: two inputs `[1,3]` and `[2]` with the
default comparator; at the initial state the emitted element is `1` and it is
minimal among the live heads. -/
theorem c2_local_minimality_witness :
    (popFrontItem (defaultC (α := Int))
      (stepN defaultC 0 (buildMerge defaultC [[1, 3], [2]]))).1 =
      some (((stepN (defaultC (α := Int)) 0 (buildMerge defaultC [[1, 3], [2]])).slots.getD
        ((stepN (defaultC (α := Int)) 0
          (buildMerge defaultC [[1, 3], [2]])).ptrs.getD 0 0) default).item) ∧
    ∀ q ∈ (stepN (defaultC (α := Int)) 0 (buildMerge defaultC [[1, 3], [2]])).ptrs,
      (cmpAt defaultC (stepN (defaultC (α := Int)) 0 (buildMerge defaultC [[1, 3], [2]])).slots
        ((stepN (defaultC (α := Int)) 0
          (buildMerge defaultC [[1, 3], [2]])).ptrs.getD 0 0) q).isLE = true :=
  c2_local_minimality defaultC (fun sl => transCmp_cmpAt_default sl) [[1, 3], [2]] 0
    (by decide)

/-- C5. The merge iterator is fused: if a call to `next` reports absence, the
state is left untouched, and every subsequent `next` (after any number of
further steps) still reports absence on that same untouched state. -/
theorem c5_fused [Inhabited α] (cmp : Cmp α) (s : HeapState α)
    (h : (popFrontItem cmp s).1 = none) :
    (popFrontItem cmp s).2 = s ∧
    ∀ n, popFrontItem cmp (stepN cmp n s) = (none, s) := by
  have hnil := popFrontItem_fst_none h
  have heq : popFrontItem cmp s = (none, s) := popFrontItem_of_nil cmp hnil
  refine ⟨by rw [heq], ?_⟩
  intro n
  induction n with
  | zero => exact heq
  | succ n ih =>
    have hstep : stepN cmp (n + 1) s = stepN cmp n s := by
      show stepN cmp n (popFrontItem cmp s).2 = stepN cmp n s
      rw [heq]
    rw [hstep]
    exact ih

/-- Witness for C5: the empty engine reports absence and stays fused. -/
theorem c5_fused_witness :
    (popFrontItem (defaultC (α := Int)) ⟨[], []⟩).2 = (⟨[], []⟩ : HeapState Int) ∧
    ∀ n, popFrontItem (defaultC (α := Int)) (stepN defaultC n ⟨[], []⟩) =
      (none, (⟨[], []⟩ : HeapState Int)) :=
  c5_fused defaultC ⟨[], []⟩ (by decide)

theorem nat_compare_isLE {p q : Nat} (h : (compare p q).isLE = true) : p ≤ q := by
  rw [isLE_iff_ne_gt] at h
  exact compare_le_iff_le.1 h

/-- C4. With the insertion-order tie-breaker as C₂ and any lawful primary
comparator C₁, at every reachable state: the emitted element is the head of
the slot `ptrs[0]`, and for every live input whose head compares `Equal` to it
under C₁ alone, the emitting slot's index (equal to its insertion rank, since
`mkState` assigns slot addresses in insertion order and slots are never
reordered) is at most the other slot's index: the earliest-inserted tied
input wins. -/
theorem c4_stable_tie_break [Inhabited α] (c₁ : α → α → Ordering)
    (hc₁ : Batteries.TransCmp c₁) (inputs : List (List α)) (k : Nat)
    (hne : (stepN (chainC (liftC c₁) insOrdC) k
      (buildMerge (chainC (liftC c₁) insOrdC) inputs)).ptrs ≠ []) :
    (popFrontItem (chainC (liftC c₁) insOrdC) (stepN (chainC (liftC c₁) insOrdC) k
      (buildMerge (chainC (liftC c₁) insOrdC) inputs))).1 =
      some (((stepN (chainC (liftC c₁) insOrdC) k
        (buildMerge (chainC (liftC c₁) insOrdC) inputs)).slots.getD
        ((stepN (chainC (liftC c₁) insOrdC) k
          (buildMerge (chainC (liftC c₁) insOrdC) inputs)).ptrs.getD 0 0) default).item) ∧
    ∀ q ∈ (stepN (chainC (liftC c₁) insOrdC) k
        (buildMerge (chainC (liftC c₁) insOrdC) inputs)).ptrs,
      c₁ (((stepN (chainC (liftC c₁) insOrdC) k
          (buildMerge (chainC (liftC c₁) insOrdC) inputs)).slots.getD
          ((stepN (chainC (liftC c₁) insOrdC) k
            (buildMerge (chainC (liftC c₁) insOrdC) inputs)).ptrs.getD 0 0) default).item)
        (((stepN (chainC (liftC c₁) insOrdC) k
          (buildMerge (chainC (liftC c₁) insOrdC) inputs)).slots.getD q default).item)
        = .eq →
      (stepN (chainC (liftC c₁) insOrdC) k
        (buildMerge (chainC (liftC c₁) insOrdC) inputs)).ptrs.getD 0 0 ≤ q := by
  have hc : ∀ sl : List (PeekIter α),
      Batteries.TransCmp (cmpAt (chainC (liftC c₁) insOrdC) sl) :=
    fun sl => transCmp_cmpAt_chain_ins hc₁ sl
  have hinv := stepN_inv hc k _ (buildMerge_inv hc inputs)
  refine ⟨popFrontItem_fst _ _ hne, ?_⟩
  intro q hq heq
  have hle := engineInv_min_mem (hc _) hinv q hq
  rw [show ∀ sl p' q', cmpAt (chainC (liftC c₁) insOrdC) sl p' q' =
      (c₁ (sl.getD p' default).item (sl.getD q' default).item).then (compare p' q')
    from fun _ _ _ => rfl] at hle
  rw [heq] at hle
  exact nat_compare_isLE hle

/-- Witness for C4: inputs `[1,5]` and `[1]` tie on the head `1`; the element
is emitted from slot 0, the earlier-inserted input. -/
theorem c4_stable_tie_break_witness :
    (popFrontItem (chainC (liftC compare) insOrdC) (stepN (chainC (liftC compare) insOrdC) 0
      (buildMerge (chainC (liftC compare) insOrdC) [[(1 : Int), 5], [1]]))).1 =
      some (((stepN (chainC (liftC compare) insOrdC) 0
        (buildMerge (chainC (liftC compare) insOrdC) [[(1 : Int), 5], [1]])).slots.getD
        ((stepN (chainC (liftC compare) insOrdC) 0
          (buildMerge (chainC (liftC compare) insOrdC)
            [[(1 : Int), 5], [1]])).ptrs.getD 0 0) default).item) ∧
    ∀ q ∈ (stepN (chainC (liftC compare) insOrdC) 0
        (buildMerge (chainC (liftC compare) insOrdC) [[(1 : Int), 5], [1]])).ptrs,
      compare (((stepN (chainC (liftC compare) insOrdC) 0
          (buildMerge (chainC (liftC compare) insOrdC) [[(1 : Int), 5], [1]])).slots.getD
          ((stepN (chainC (liftC compare) insOrdC) 0
            (buildMerge (chainC (liftC compare) insOrdC)
              [[(1 : Int), 5], [1]])).ptrs.getD 0 0) default).item)
        (((stepN (chainC (liftC compare) insOrdC) 0
          (buildMerge (chainC (liftC compare) insOrdC)
            [[(1 : Int), 5], [1]])).slots.getD q default).item)
        = .eq →
      (stepN (chainC (liftC compare) insOrdC) 0
        (buildMerge (chainC (liftC compare) insOrdC) [[(1 : Int), 5], [1]])).ptrs.getD 0 0 ≤ q :=
  c4_stable_tie_break compare inferInstance [[(1 : Int), 5], [1]] 0 (by decide)

/-- C7. `heapify_storage` behaves as specified: with `len ≤ 1` it does
nothing; otherwise the bottom-up phase over positions `len/2 .. 1` makes
`ptrs[1..len]` a valid binary min-heap (children of `i` at `2i` and `2i+1`),
and after the `[0,1]` fix-up (conditional swap plus sift-down from index 1)
the final array still has the min-heap on `ptrs[1..]`,
`head(ptrs[0]) ≤ head(ptrs[1])`, and `ptrs[0]` is the global minimum. -/
theorem c7_heapify [Inhabited α] (cmp : Cmp α) (s : HeapState α)
    (hc : Batteries.TransCmp (cmpAt cmp s.slots)) (hv : ValidState s) :
    (s.ptrs.length ≤ 1 → heapifyStorage cmp s = s) ∧
    (2 ≤ s.ptrs.length →
      HeapFrom (cmpAt cmp s.slots)
        (heapifyFrom (cmpAt cmp s.slots) (s.ptrs.length / 2) s.ptrs) 1) ∧
    HeapFrom (cmpAt cmp s.slots) (heapifyStorage cmp s).ptrs 1 ∧
    (2 ≤ s.ptrs.length →
      (cmpAt cmp s.slots ((heapifyStorage cmp s).ptrs.getD 0 0)
        ((heapifyStorage cmp s).ptrs.getD 1 0)).isLE = true) ∧
    (∀ j, j < (heapifyStorage cmp s).ptrs.length →
      (cmpAt cmp s.slots ((heapifyStorage cmp s).ptrs.getD 0 0)
        ((heapifyStorage cmp s).ptrs.getD j 0)).isLE = true) := by
  have hinv := heapifyStorage_inv hc hv
  obtain ⟨hval, Hh, Ht⟩ := hinv
  rw [heapifyStorage_slots] at Hh Ht
  have hlperm := (heapifyStorage_ptrs_perm cmp s).length_eq
  refine ⟨?_, ?_, Hh, fun h2 => Ht (by omega), ?_⟩
  · intro h1
    unfold heapifyStorage
    rw [if_pos h1]
  · intro h2
    exact heapifyFrom_heapFrom hc _ _ (by omega) heapFrom_vacuous
  · have hmin := engineInv_min (s := heapifyStorage cmp s)
      (by rw [heapifyStorage_slots]; exact hc)
      ⟨hval, by rw [heapifyStorage_slots]; exact Hh, by rw [heapifyStorage_slots]; exact Ht⟩
    rw [heapifyStorage_slots] at hmin
    exact fun j hj => hmin j hj

/-- Concrete three-input state used to witness C7: heads 3, 1, 2. -/
def c7WitnessState : HeapState Int := ⟨[⟨3, [4]⟩, ⟨1, []⟩, ⟨2, []⟩], [0, 1, 2]⟩

/-- Witness for C7 at a concrete input. -/
theorem c7_heapify_witness :
    (c7WitnessState.ptrs.length ≤ 1 →
      heapifyStorage defaultC c7WitnessState = c7WitnessState) ∧
    (2 ≤ c7WitnessState.ptrs.length →
      HeapFrom (cmpAt defaultC c7WitnessState.slots)
        (heapifyFrom (cmpAt defaultC c7WitnessState.slots)
          (c7WitnessState.ptrs.length / 2) c7WitnessState.ptrs) 1) ∧
    HeapFrom (cmpAt defaultC c7WitnessState.slots)
      (heapifyStorage defaultC c7WitnessState).ptrs 1 ∧
    (2 ≤ c7WitnessState.ptrs.length →
      (cmpAt defaultC c7WitnessState.slots
        ((heapifyStorage defaultC c7WitnessState).ptrs.getD 0 0)
        ((heapifyStorage defaultC c7WitnessState).ptrs.getD 1 0)).isLE = true) ∧
    (∀ j, j < (heapifyStorage defaultC c7WitnessState).ptrs.length →
      (cmpAt defaultC c7WitnessState.slots
        ((heapifyStorage defaultC c7WitnessState).ptrs.getD 0 0)
        ((heapifyStorage defaultC c7WitnessState).ptrs.getD j 0)).isLE = true) :=
  c7_heapify defaultC c7WitnessState (transCmp_cmpAt_default _) ⟨by decide, by decide⟩

/-- C9 counterexample. Merging `[[10,8,6,4,2],[1,3,5,7,9]]` with the default
configuration does NOT produce the sequence `[10,1,3,5,7,8,6,4,2,9]` claimed
by scenario S7 of the specification: `heapify_storage` runs at construction
and puts the smallest head (1) at `ptrs[0]`, so the run cannot start with 10
(indeed `[10,…]` would violate the specification's own local-minimality
property, since 1 is live when 10 would be emitted). -/
theorem c9_s7_counterexample :
    runPop (defaultC (α := Int)) (totalCount (buildMerge defaultC [[10,8,6,4,2],[1,3,5,7,9]]))
      (buildMerge defaultC [[10,8,6,4,2],[1,3,5,7,9]]) ≠ [10,1,3,5,7,8,6,4,2,9] := by
  decide

/-- C9 amended. Merging `[[10,8,6,4,2],[1,3,5,7,9]]` with the default
configuration (min by natural order, insertion-order tie-break) and collecting
all emitted elements yields exactly `[1,3,5,7,9,10,8,6,4,2]`. -/
theorem c9_s7_amended :
    runPop (defaultC (α := Int)) (totalCount (buildMerge defaultC [[10,8,6,4,2],[1,3,5,7,9]]))
      (buildMerge defaultC [[10,8,6,4,2],[1,3,5,7,9]]) = [1,3,5,7,9,10,8,6,4,2] := by
  decide

/-! ### size_hint (src/merge_iter.rs lines 180-198) -/

/-- The number of values of Rust's `usize` type (64-bit platform), `2^64`. -/
def USIZE : Nat := 18446744073709551616

/-- `usize::MAX`. -/
def UMAX : Nat := USIZE - 1

/-- `usize::saturating_add`. -/
def satAdd (a b : Nat) : Nat := min (a + b) UMAX

/-- `usize::overflowing_add`: the wrapped sum and the overflow flag. -/
def ovAdd (a b : Nat) : Nat × Bool := ((a + b) % USIZE, decide (USIZE ≤ a + b))

/-- One step of the `map_items` fold in `MergeIter::size_hint`: saturating
accumulation of the lower bounds, overflowing accumulation of the upper
bounds (`None` treated as `usize::MAX`), with a sticky overflow flag. -/
def sizeHintStep (acc : Nat × Nat × Bool) (h : Nat × Option Nat) : Nat × Nat × Bool :=
  let mn := satAdd acc.1 h.1
  let mxo := ovAdd acc.2.1 (h.2.getD UMAX)
  (mn, mxo.1, acc.2.2 || mxo.2)

/-- `MergeIter::size_hint` over the size hints of the live inputs' remaining
iterators: `min` and `max` both start at `storage.len()` (the number of
peeked items, equal to the number of hints), and the upper bound is dropped
when the sticky overflow flag was set. -/
def sizeHintFold (hints : List (Nat × Option Nat)) : Nat × Option Nat :=
  let r := hints.foldl sizeHintStep (hints.length, hints.length, false)
  (r.1, if r.2.2 then none else some r.2.1)

/-- `MergeIter::size_hint` on an engine state; a model iterator (a list)
reports the exact size hint `(length, Some length)`, as `Vec`'s iterator
does. -/
def sizeHint [Inhabited α] (s : HeapState α) : Nat × Option Nat :=
  sizeHintFold (s.ptrs.map fun p =>
    ((s.slots.getD p default).iter.length, some ((s.slots.getD p default).iter.length)))

theorem fold_min_eq :
    ∀ (hints : List (Nat × Option Nat)) (a m : Nat) (b : Bool), a ≤ UMAX →
      (hints.foldl sizeHintStep (a, m, b)).1 = min (a + (hints.map Prod.fst).sum) UMAX := by
  intro hints
  induction hints with
  | nil =>
    intro a m b ha
    simp only [List.foldl_nil, List.map_nil, List.sum_nil, Nat.add_zero]
    omega
  | cons h t ih =>
    intro a m b ha
    simp only [List.foldl_cons, List.map_cons, List.sum_cons]
    rw [show sizeHintStep (a, m, b) h =
      (satAdd a h.1, (ovAdd m (h.2.getD UMAX)).1, b || (ovAdd m (h.2.getD UMAX)).2) from rfl]
    rw [ih _ _ _ (by simp [satAdd])]
    simp only [satAdd]
    omega

theorem fold_flag_true :
    ∀ (hints : List (Nat × Option Nat)) (a m : Nat),
      (hints.foldl sizeHintStep (a, m, true)).2.2 = true := by
  intro hints
  induction hints with
  | nil => intro a m; rfl
  | cons h t ih =>
    intro a m
    simp only [List.foldl_cons]
    rw [show sizeHintStep (a, m, true) h =
      (satAdd a h.1, (ovAdd m (h.2.getD UMAX)).1, true || (ovAdd m (h.2.getD UMAX)).2) from rfl]
    rw [Bool.true_or]
    exact ih _ _

theorem fold_max_eq :
    ∀ (hints : List (Nat × Option Nat)) (a m : Nat), 1 ≤ m → m ≤ UMAX →
      (((hints.foldl sizeHintStep (a, m, false)).2.2 = false) ↔
        ((∀ h ∈ hints, h.2.isSome = true) ∧
          m + (hints.map fun h => h.2.getD 0).sum ≤ UMAX)) ∧
      ((∀ h ∈ hints, h.2.isSome = true) →
        m + (hints.map fun h => h.2.getD 0).sum ≤ UMAX →
        (hints.foldl sizeHintStep (a, m, false)).2.1 =
          m + (hints.map fun h => h.2.getD 0).sum) := by
  intro hints
  induction hints with
  | nil =>
    intro a m hm1 hm2
    constructor
    · simp only [List.foldl_nil, List.map_nil, List.sum_nil, Nat.add_zero]
      simp [hm2]
    · intro _ _
      simp
  | cons h t ih =>
    intro a m hm1 hm2
    cases hu : h.2 with
    | none =>
      have hov : (ovAdd m (h.2.getD UMAX)).2 = true := by
        rw [hu]
        simp only [Option.getD_none, ovAdd, decide_eq_true_iff]
        unfold UMAX USIZE
        omega
      constructor
      · simp only [List.foldl_cons]
        rw [show sizeHintStep (a, m, false) h =
          (satAdd a h.1, (ovAdd m (h.2.getD UMAX)).1,
            false || (ovAdd m (h.2.getD UMAX)).2) from rfl, hov]
        simp only [Bool.false_or, fold_flag_true]
        constructor
        · intro hcontra
          exact absurd hcontra (by simp)
        · rintro ⟨hall, -⟩
          have := hall h (by simp)
          rw [hu] at this
          exact absurd this (by simp)
      · intro hall _
        have := hall h (by simp)
        rw [hu] at this
        exact absurd this (by simp)
    | some u =>
      by_cases hov : USIZE ≤ m + u
      · have hov2 : (ovAdd m (h.2.getD UMAX)).2 = true := by
          rw [hu]
          simp only [Option.getD_some, ovAdd, decide_eq_true_iff]
          exact hov
        constructor
        · simp only [List.foldl_cons]
          rw [show sizeHintStep (a, m, false) h =
            (satAdd a h.1, (ovAdd m (h.2.getD UMAX)).1,
              false || (ovAdd m (h.2.getD UMAX)).2) from rfl, hov2]
          simp only [Bool.false_or, fold_flag_true]
          constructor
          · intro hcontra
            exact absurd hcontra (by simp)
          · rintro ⟨hall, hsum⟩
            rw [List.map_cons, List.sum_cons, hu] at hsum
            simp only [Option.getD_some] at hsum
            unfold UMAX at hsum
            omega
        · intro hall hsum
          rw [List.map_cons, List.sum_cons, hu] at hsum
          simp only [Option.getD_some] at hsum
          unfold UMAX at hsum
          omega
      · have hov2 : (ovAdd m (h.2.getD UMAX)) = (m + u, false) := by
          rw [hu]
          simp only [Option.getD_some, ovAdd]
          rw [Nat.mod_eq_of_lt (by omega)]
          simp only [Prod.mk.injEq, decide_eq_false_iff_not, true_and]
          omega
        have hstep : sizeHintStep (a, m, false) h = (satAdd a h.1, m + u, false) := by
          rw [show sizeHintStep (a, m, false) h =
            (satAdd a h.1, (ovAdd m (h.2.getD UMAX)).1,
              false || (ovAdd m (h.2.getD UMAX)).2) from rfl, hov2]
          rfl
        obtain ⟨ih1, ih2⟩ := ih (satAdd a h.1) (m + u) (by omega)
          (by
            have hx := hov
            unfold USIZE at hx
            unfold UMAX USIZE
            omega)
        constructor
        · simp only [List.foldl_cons, hstep]
          rw [ih1]
          simp only [List.map_cons, List.sum_cons, hu, Option.getD_some]
          constructor
          · rintro ⟨hall, hsum⟩
            refine ⟨?_, by omega⟩
            intro h2 hh2
            rcases List.mem_cons.1 hh2 with rfl | hmem
            · rw [hu]; rfl
            · exact hall h2 hmem
          · rintro ⟨hall, hsum⟩
            exact ⟨fun h2 hh2 => hall h2 (List.mem_cons_of_mem h hh2), by omega⟩
        · intro hall hsum
          simp only [List.foldl_cons, hstep]
          rw [List.map_cons, List.sum_cons, hu] at hsum ⊢
          simp only [Option.getD_some] at hsum ⊢
          rw [ih2 (fun h2 hh2 => hall h2 (List.mem_cons_of_mem h hh2)) (by omega)]
          omega

/-- C6. `size_hint` returns: lower bound = `len` plus the saturating sum of
the lower bounds of all live inputs (i.e. the sum clamped at `usize::MAX`);
upper bound = `len` plus the sum of the upper bounds if every live input has
an upper bound and the sum does not overflow `usize`, otherwise absent.
The engine length `len` equals the number of live hints. In particular two
live inputs each holding `usize::MAX` elements (one peeked head plus
`usize::MAX - 1` remaining, modelled with `List.replicate`) yield
`(usize::MAX, absent)`. -/
theorem c6_size_hint :
    (∀ hints : List (Nat × Option Nat), hints.length ≤ UMAX →
      sizeHintFold hints =
        (min (hints.length + (hints.map Prod.fst).sum) UMAX,
         if (∀ h ∈ hints, h.2.isSome = true) ∧
            hints.length + (hints.map fun h => h.2.getD 0).sum ≤ UMAX
         then some (hints.length + (hints.map fun h => h.2.getD 0).sum)
         else none)) ∧
    sizeHint (⟨[⟨0, List.replicate (UMAX - 1) (0 : Int)⟩,
      ⟨0, List.replicate (UMAX - 1) 0⟩], [0, 1]⟩ : HeapState Int) = (UMAX, none) := by
  constructor
  · intro hints hlen
    unfold sizeHintFold
    dsimp only
    rcases hints with _ | ⟨h, t⟩
    · decide
    · have h1 := fold_min_eq (h :: t) (h :: t).length (h :: t).length false hlen
      obtain ⟨h2, h3⟩ := fold_max_eq (h :: t) (h :: t).length (h :: t).length (by simp) hlen
      refine Prod.ext h1 ?_
      dsimp only
      by_cases hP : (∀ h2 ∈ h :: t, h2.2.isSome = true) ∧
          (h :: t).length + ((h :: t).map fun h => h.2.getD 0).sum ≤ UMAX
      · rw [if_pos hP, h2.mpr hP, if_neg (by simp), h3 hP.1 hP.2]
      · rw [if_neg hP]
        have hflag : (List.foldl sizeHintStep ((h :: t).length, (h :: t).length, false)
            (h :: t)).2.2 = true := by
          rcases Bool.eq_false_or_eq_true (List.foldl sizeHintStep
            ((h :: t).length, (h :: t).length, false) (h :: t)).2.2 with ht2 | hf
          · exact ht2
          · exact absurd (h2.mp hf) hP
        rw [hflag]
        simp
  · unfold sizeHint
    simp only [List.map_cons, List.map_nil, List.getD_cons_zero, List.getD_cons_succ,
      List.length_replicate]
    decide

/-- Witness for C6: a single input with hint `(1, Some 2)`. -/
theorem c6_size_hint_witness :
    sizeHintFold [((1 : Nat), some 2)] =
      (min ([((1 : Nat), some 2)].length + ([((1 : Nat), some 2)].map Prod.fst).sum) UMAX,
       if (∀ h ∈ [((1 : Nat), some 2)], h.2.isSome = true) ∧
          [((1 : Nat), some 2)].length +
            ([((1 : Nat), some 2)].map fun h => h.2.getD 0).sum ≤ UMAX
       then some ([((1 : Nat), some 2)].length +
          ([((1 : Nat), some 2)].map fun h => h.2.getD 0).sum)
       else none) :=
  c6_size_hint.1 [(1, some 2)] (by decide)

/-! ### `ArrayStorage::try_push` (src/storage/array.rs lines 154-167) -/

/-- The `ArrayCapacityOverflow` error (src/storage/array.rs lines 15-17). -/
inductive ArrayCapacityOverflow : Type
  | mk
deriving Repr, DecidableEq

/-- `ArrayStorage::try_push`: peek the first element of the input
(`PeekIter::new_from_iter`); an empty input leaves the storage untouched and
returns `Ok` before any capacity check; a non-empty input is checked against
the capacity and then written at index `len`. -/
def tryPush (cap : Nat) (slots : List (PeekIter α)) (input : List α) :
    Except ArrayCapacityOverflow (List (PeekIter α)) :=
  match newFromIter input with
  | none => .ok slots
  | some peekIter =>
    if slots.length ≥ cap then .error .mk
    else .ok (slots ++ [peekIter])

/-- `ArrayStorage::push`: `try_push(iter).unwrap()`, which panics exactly when
`try_push` errors; modelled by `Option` (a `none` is the panic). -/
def pushStorage (cap : Nat) (slots : List (PeekIter α)) (input : List α) :
    Option (List (PeekIter α)) :=
  (tryPush cap slots input).toOption

/-- C10. `try_push` filters empty inputs before checking capacity: pushing an
empty input returns `Ok` and leaves the storage unchanged even on a full (or
over-full) storage, so the infallible `push` of an empty input never panics;
the capacity-overflow error is returned exactly for a non-empty input when
`len ≥ CAP`; and a non-empty input below capacity is appended as a peeked
slot. -/
theorem c10_try_push_filters_empty_first (α : Type) :
    (∀ (cap : Nat) (slots : List (PeekIter α)), tryPush cap slots ([] : List α) = .ok slots) ∧
    (∀ (cap : Nat) (slots : List (PeekIter α)),
      pushStorage cap slots ([] : List α) = some slots) ∧
    (∀ (cap : Nat) (slots : List (PeekIter α)) (input : List α),
      tryPush cap slots input = .error .mk ↔ input ≠ [] ∧ cap ≤ slots.length) ∧
    (∀ (cap : Nat) (slots : List (PeekIter α)) (x : α) (rest : List α),
      slots.length < cap → tryPush cap slots (x :: rest) = .ok (slots ++ [⟨x, rest⟩])) := by
  refine ⟨fun cap slots => rfl, fun cap slots => rfl, ?_, ?_⟩
  · intro cap slots input
    cases input with
    | nil =>
      simp only [tryPush, newFromIter]
      constructor
      · intro h
        exact absurd h (by simp)
      · rintro ⟨h, -⟩
        exact absurd rfl h
    | cons x rest =>
      simp only [tryPush, newFromIter]
      split
      · rename_i hge
        simp only [ne_eq, reduceCtorEq, not_false_eq_true, true_and]
        constructor
        · intro _
          omega
        · intro _
          trivial
      · rename_i hlt
        constructor
        · intro h
          exact absurd h (by simp)
        · rintro ⟨-, h⟩
          omega
  · intro cap slots x rest hlt
    simp only [tryPush, newFromIter]
    rw [if_neg (by omega)]

/-- Witness for C10's conditional part: a push below capacity appends. -/
theorem c10_try_push_witness :
    tryPush 2 [⟨(5 : Int), []⟩] [7, 8] = .ok [⟨5, []⟩, ⟨7, [8]⟩] :=
  c10_try_push_filters_empty_first Int |>.2.2.2 2 [⟨5, []⟩] 7 [8] (by decide)

/-! ### `StorageOps::clear` under panicking destructors
(src/internal.rs lines 217-229; `ArrayStorage::drop` src/storage/array.rs
lines 258-275 and `InternalVecStorage::drop` src/storage/vec.rs lines 277-289
follow the same shape: the length is zeroed once up front, then the
destructors run in a plain loop with no unwind protection). -/

/-- The destructor loop of `clear`: `drop_in_place` runs for each listed slot
in order; `panicky i = true` means slot `i`'s destructor panics, which unwinds
out of the loop immediately (the panicking slot's destructor did run).
Returns the indices whose destructors executed, and whether a panic
propagated. -/
def dropLoop (panicky : Nat → Bool) : List Nat → List Nat × Bool
  | [] => ([], false)
  | i :: rest =>
    if panicky i then ([i], true)
    else
      let r := dropLoop panicky rest
      (i :: r.1, r.2)

/-- `StorageOps::clear`: `set_len(0)` happens before the loop, so the final
length is 0 no matter what the destructors do. -/
def clearModel (panicky : Nat → Bool) (len : Nat) : (List Nat × Bool) × Nat :=
  (dropLoop panicky (List.range len), 0)

theorem dropLoop_sublist (panicky : Nat → Bool) :
    ∀ l : List Nat, (dropLoop panicky l).1.Sublist l := by
  intro l
  induction l with
  | nil => exact List.Sublist.refl []
  | cons i rest ih =>
    unfold dropLoop
    split
    · exact (List.nil_sublist rest).cons₂ i
    · exact ih.cons₂ i

theorem dropLoop_no_panic (panicky : Nat → Bool) :
    ∀ l : List Nat, (∀ i ∈ l, panicky i = false) → dropLoop panicky l = (l, false) := by
  intro l
  induction l with
  | nil => intro _; rfl
  | cons i rest ih =>
    intro h
    unfold dropLoop
    rw [if_neg (by rw [h i (by simp)]; simp), ih (fun j hj => h j (by simp [hj]))]

theorem dropLoop_panic_at (panicky : Nat → Bool) :
    ∀ (l₁ : List Nat) (k : Nat) (l₂ : List Nat), (∀ i ∈ l₁, panicky i = false) →
      panicky k = true →
      dropLoop panicky (l₁ ++ k :: l₂) = (l₁ ++ [k], true) := by
  intro l₁
  induction l₁ with
  | nil =>
    intro k l₂ _ hk
    rw [List.nil_append]
    unfold dropLoop
    rw [if_pos hk]
    rfl
  | cons i rest ih =>
    intro k l₂ h hk
    simp only [List.cons_append]
    unfold dropLoop
    rw [if_neg (by rw [h i (by simp)]; simp),
      ih k l₂ (fun j hj => h j (by simp [hj])) hk]

/-- C8 counterexample. With two live slots where slot 0's destructor panics,
a panic does propagate out of `clear`, yet slot 1's destructor is NOT
executed (it is leaked), contradicting the claim that every other still-live
slot's destructor is nevertheless executed. -/
theorem c8_clear_counterexample :
    (clearModel (fun i => i == 0) 2).1.2 = true ∧
    ¬ (∀ j, j < 2 → j ∈ (clearModel (fun i => i == 0) 2).1.1) := by
  decide

/-- C8 amended. When the merge iterator's storage is cleared: the length is
set to 0 before any destructor call (so no slot can be dropped twice — the
executed list has no duplicates and only in-range slots); destructors run in
slot order; if no destructor panics, every slot is dropped exactly once; if
slot `k` is the first whose destructor panics, exactly slots `0..k`
(inclusive) have run, the panic propagates, and the remaining slots are
leaked (their destructors never execute). -/
theorem c8_clear_amended (panicky : Nat → Bool) (len : Nat) :
    (clearModel panicky len).2 = 0 ∧
    (clearModel panicky len).1.1.Nodup ∧
    (∀ j ∈ (clearModel panicky len).1.1, j < len) ∧
    ((∀ j, j < len → panicky j = false) →
      (clearModel panicky len).1.1 = List.range len ∧
      (clearModel panicky len).1.2 = false) ∧
    (∀ k, k < len → panicky k = true → (∀ j, j < k → panicky j = false) →
      (clearModel panicky len).1.1 = List.range (k + 1) ∧
      (clearModel panicky len).1.2 = true) := by
  refine ⟨rfl, ?_, ?_, ?_, ?_⟩
  · exact ((dropLoop_sublist panicky (List.range len)).nodup (List.nodup_range len))
  · intro j hj
    exact List.mem_range.1 ((dropLoop_sublist panicky (List.range len)).mem hj)
  · intro h
    unfold clearModel
    rw [dropLoop_no_panic panicky (List.range len)
      (fun i hi => h i (List.mem_range.1 hi))]
    exact ⟨rfl, rfl⟩
  · intro k hk hpk hbefore
    unfold clearModel
    obtain ⟨m, hm⟩ : ∃ m, len = (k + 1) + m := ⟨len - (k + 1), by omega⟩
    have hsplit : List.range len = List.range k ++ k :: (List.range m).map ((k + 1) + ·) := by
      rw [hm, List.range_add, List.range_succ]
      simp
    rw [hsplit, dropLoop_panic_at panicky (List.range k) k _
      (fun i hi => hbefore i (List.mem_range.1 hi)) hpk]
    rw [← List.range_succ]
    exact ⟨rfl, rfl⟩

/-- Witness for C8 (amended): three slots, slot 1's destructor panics: slots
0 and 1 run, the panic propagates, slot 2 is leaked. -/
theorem c8_clear_amended_witness :
    (clearModel (fun i => i == 1) 3).1.1 = List.range 2 ∧
    (clearModel (fun i => i == 1) 3).1.2 = true :=
  (c8_clear_amended (fun i => i == 1) 3).2.2.2.2 1 (by decide) (by decide)
    (fun j hj => by interval_cases j <;> rfl)

/-! ### `Heap::into_vec` (src/internal/heap.rs lines 156-271)

The optimized bulk drain. Its phases: a main loop while `len >= 3` (one
iteration being exactly one `pop_front_item` step, except that when the front
iterator exhausts and the heap shrinks to two iterators the loop `break`s
without the — there trivial — sift), then a two-iterator loop that keeps the
running pair only in the local variables `first`/`second` (the heap is not
updated), and finally a single-iterator tail that pushes the peeked item and
extends with the remaining iterator. -/

/-- The single-iterator tail of `into_vec`: `res.push(item); res.extend(iter)`. -/
def intoVec1 (p : PeekIter α) : List α := p.item :: p.iter

/-- The `len == 2` phase of `into_vec`: advance the front iterator, emitting
its previous head; when the order breaks, `mem::swap(&mut first, &mut second)`
swaps only the two local pointers; on exhaustion fall through to the
single-iterator tail with `second`. Fueled (the source loop terminates because
every `advance` removes one element). -/
def intoVec2 [Inhabited α] (cmp : Cmp α) : Nat → List (PeekIter α) → Nat → Nat → List α
  | 0, _, _, _ => []
  | fuel + 1, slots, f, sd =>
    let slot := slots.getD f default
    match slot.advance with
    | some (v, slot') =>
      let slots' := slots.set f slot'
      if (cmpAt cmp slots' f sd).isGT then
        v :: intoVec2 cmp fuel slots' sd f
      else
        v :: intoVec2 cmp fuel slots' f sd
    | none => slot.item :: intoVec1 (slots.getD sd default)

/-- The body of `into_vec`: dispatching on the number of live iterators
realizes the source's phase structure. In the `len >= 3` branch the `rs = []`
test is the source's `if self.storage.len() == 2 { break; }`: the freshly
shrunk two-pointer heap is handed to the pair phase without a sift. -/
def intoVecGo [Inhabited α] (cmp : Cmp α) : Nat → HeapState α → List α
  | 0, _ => []
  | fuel + 1, s =>
    match s.ptrs with
    | [] => []
    | [p] => intoVec1 (s.slots.getD p default)
    | [f, sd] => intoVec2 cmp (fuel + 1) s.slots f sd
    | p :: q :: r :: rs =>
      let slot := s.slots.getD p default
      match slot.advance with
      | some (v, slot') =>
        let slots' := s.slots.set p slot'
        if (cmpAt cmp slots' p q).isGT then
          v :: intoVecGo cmp fuel ⟨slots', siftDown (cmpAt cmp slots') (q :: p :: r :: rs) 1⟩
        else
          v :: intoVecGo cmp fuel ⟨slots', p :: q :: r :: rs⟩
      | none =>
        let last := (r :: rs).getLast (List.cons_ne_nil r rs)
        let l := q :: last :: (r :: rs).dropLast
        slot.item ::
          if rs = [] then intoVecGo cmp fuel ⟨s.slots, l⟩
          else intoVecGo cmp fuel ⟨s.slots, siftDown (cmpAt cmp s.slots) l 1⟩

/-- `Heap::into_vec`, with enough fuel to drain the heap completely (each
emission removes exactly one element from the state). -/
def intoVec [Inhabited α] (cmp : Cmp α) (s : HeapState α) : List α :=
  intoVecGo cmp (totalCount s + 1) s

theorem runPop_nil_ptrs [Inhabited α] (cmp : Cmp α) (slots : List (PeekIter α)) :
    ∀ n, runPop cmp n ⟨slots, []⟩ = [] := by
  intro n
  cases n <;> rfl

/-- Sifting down from index 1 in a two-pointer heap is a no-op: the hole at 1
has no children below `last_el = 1`. -/
theorem siftDown_pair (c : Nat → Nat → Ordering) (a b : Nat) :
    siftDown c [a, b] 1 = [a, b] := rfl

/-- The single-iterator phases agree: draining a one-pointer heap step by
step emits the peeked item followed by the rest of the iterator. -/
theorem runPop_single [Inhabited α] (cmp : Cmp α) :
    ∀ (fuel : Nat) (slots : List (PeekIter α)) (q : Nat), q < slots.length →
      (slots.getD q default).iter.length < fuel →
      runPop cmp fuel ⟨slots, [q]⟩ = intoVec1 (slots.getD q default) := by
  intro fuel
  induction fuel with
  | zero => intro slots q _ hf; omega
  | succ n ih =>
    intro slots q hq hf
    unfold runPop
    simp only [popFrontItem]
    cases hadv : (slots.getD q default).advance with
    | none =>
      dsimp only
      rw [runPop_nil_ptrs]
      unfold intoVec1
      rw [advance_none hadv]
    | some pair =>
      obtain ⟨x, slot'⟩ := pair
      dsimp only
      obtain ⟨hx, hiter⟩ := advance_some hadv
      have hlf : (slots.getD q default).iter.length = slot'.iter.length + 1 := by
        rw [hiter]
        rfl
      rw [ih (slots.set q slot') q (by rw [List.length_set]; exact hq)
        (by rw [slots_getD_set_self hq]; omega)]
      rw [slots_getD_set_self hq]
      unfold intoVec1
      rw [hiter, hx]

/-- The two-iterator phases agree: `into_vec`'s local-swap loop emits the
same sequence as repeated `pop_front_item` on the two-pointer heap. -/
theorem intoVec2_eq_runPop [Inhabited α] (cmp : Cmp α) :
    ∀ (fuel₁ fuel₂ : Nat) (slots : List (PeekIter α)) (f sd : Nat),
      f < slots.length → sd < slots.length → f ≠ sd →
      (slots.getD f default).iter.length + (slots.getD sd default).iter.length + 1 ≤ fuel₁ →
      (slots.getD f default).iter.length + (slots.getD sd default).iter.length + 2 ≤ fuel₂ →
      intoVec2 cmp fuel₁ slots f sd = runPop cmp fuel₂ ⟨slots, [f, sd]⟩ := by
  intro fuel₁
  induction fuel₁ with
  | zero => intro fuel₂ slots f sd _ _ _ h1 _; omega
  | succ n ih =>
    intro fuel₂ slots f sd hf hsd hne h1 h2
    obtain ⟨m, rfl⟩ : ∃ m, fuel₂ = m + 1 := ⟨fuel₂ - 1, by omega⟩
    unfold intoVec2 runPop
    simp only [popFrontItem]
    cases hadv : (slots.getD f default).advance with
    | none =>
      dsimp only
      have hiter := advance_none hadv
      rw [runPop_single cmp m slots sd hsd
        (by rw [hiter] at h2; simp only [List.length_nil] at h2; omega)]
    | some pair =>
      obtain ⟨x, slot'⟩ := pair
      dsimp only
      obtain ⟨hx, hiter⟩ := advance_some hadv
      have hlf : (slots.getD f default).iter.length = slot'.iter.length + 1 := by
        rw [hiter]
        rfl
      have hgf : (slots.set f slot').getD f default = slot' := slots_getD_set_self hf
      have hgs : (slots.set f slot').getD sd default = slots.getD sd default :=
        slots_getD_set_ne hne
      by_cases hgt : (cmpAt cmp (slots.set f slot') f sd).isGT = true
      · simp only [if_pos hgt]
        congr 1
        apply ih m (slots.set f slot') sd f (by rw [List.length_set]; exact hsd)
          (by rw [List.length_set]; exact hf) (Ne.symm hne)
        · rw [hgf, hgs]
          omega
        · rw [hgf, hgs]
          omega
      · simp only [if_neg hgt]
        congr 1
        apply ih m (slots.set f slot') f sd (by rw [List.length_set]; exact hf)
          (by rw [List.length_set]; exact hsd) hne
        · rw [hgf, hgs]
          omega
        · rw [hgf, hgs]
          omega

/-- The phases of `into_vec` jointly emit exactly what step-by-step
`pop_front_item` consumption emits, from any valid state, with any
sufficient fuel on either side. -/
theorem intoVecGo_eq_runPop [Inhabited α] (cmp : Cmp α) :
    ∀ (fuel₁ fuel₂ : Nat) (s : HeapState α), ValidState s →
      totalCount s < fuel₁ → totalCount s < fuel₂ →
      intoVecGo cmp fuel₁ s = runPop cmp fuel₂ s := by
  intro fuel₁
  induction fuel₁ with
  | zero => intro fuel₂ s _ h1 _; omega
  | succ n ih =>
    intro fuel₂ s hv h1 h2
    obtain ⟨m, rfl⟩ : ∃ m, fuel₂ = m + 1 := ⟨fuel₂ - 1, by omega⟩
    obtain ⟨slots, ptrs⟩ := s
    obtain ⟨hb, hnd⟩ := hv
    simp only at hb hnd
    match ptrs with
    | [] =>
      rw [runPop_nil_ptrs]
      rfl
    | [p] =>
      have hp : p < slots.length := hb p (by simp)
      have htc : totalCount ⟨slots, [p]⟩ = 1 + (slots.getD p default).iter.length := by
        simp [totalCount]
      rw [runPop_single cmp (m + 1) slots p hp (by omega)]
      rfl
    | [f, sd] =>
      have hf : f < slots.length := hb f (by simp)
      have hsd : sd < slots.length := hb sd (by simp)
      have hne : f ≠ sd := by simpa using hnd
      have htc : totalCount ⟨slots, [f, sd]⟩ =
          2 + (slots.getD f default).iter.length + (slots.getD sd default).iter.length := by
        simp [totalCount]
        omega
      show intoVec2 cmp (n + 1) slots f sd = runPop cmp (m + 1) ⟨slots, [f, sd]⟩
      exact intoVec2_eq_runPop cmp (n + 1) (m + 1) slots f sd hf hsd hne (by omega) (by omega)
    | p :: q :: r :: rs =>
      unfold intoVecGo runPop
      simp only [popFrontItem]
      cases hadv : (slots.getD p default).advance with
      | some pair =>
        obtain ⟨x, slot'⟩ := pair
        dsimp only
        by_cases hgt : (cmpAt cmp (slots.set p slot') p q).isGT = true
        · have heq : popFrontItem cmp ⟨slots, p :: q :: r :: rs⟩ =
              (some x, ⟨slots.set p slot',
                siftDown (cmpAt cmp (slots.set p slot')) (q :: p :: r :: rs) 1⟩) := by
            simp only [popFrontItem]
            rw [hadv]
            dsimp only
            rw [if_pos hgt]
          have hv' : ValidState (⟨slots.set p slot',
              siftDown (cmpAt cmp (slots.set p slot')) (q :: p :: r :: rs) 1⟩ : HeapState α) := by
            have h := popFrontItem_valid cmp
              (⟨hb, hnd⟩ : ValidState ⟨slots, p :: q :: r :: rs⟩)
            rw [heq] at h
            exact h
          have htc' : totalCount (⟨slots.set p slot',
              siftDown (cmpAt cmp (slots.set p slot')) (q :: p :: r :: rs) 1⟩ : HeapState α) + 1
              = totalCount ⟨slots, p :: q :: r :: rs⟩ := by
            rw [totalCount_eq_card, totalCount_eq_card,
              popFrontItem_bag cmp (⟨hb, hnd⟩ : ValidState ⟨slots, p :: q :: r :: rs⟩) heq]
            simp
          simp only [if_pos hgt]
          congr 1
          exact ih (m + 1 - 1) _ hv' (by omega) (by omega)
        · have heq : popFrontItem cmp ⟨slots, p :: q :: r :: rs⟩ =
              (some x, ⟨slots.set p slot', p :: q :: r :: rs⟩) := by
            simp only [popFrontItem]
            rw [hadv]
            dsimp only
            rw [if_neg hgt]
          have hv' : ValidState (⟨slots.set p slot', p :: q :: r :: rs⟩ : HeapState α) := by
            have h := popFrontItem_valid cmp
              (⟨hb, hnd⟩ : ValidState ⟨slots, p :: q :: r :: rs⟩)
            rw [heq] at h
            exact h
          have htc' : totalCount (⟨slots.set p slot', p :: q :: r :: rs⟩ : HeapState α) + 1
              = totalCount ⟨slots, p :: q :: r :: rs⟩ := by
            rw [totalCount_eq_card, totalCount_eq_card,
              popFrontItem_bag cmp (⟨hb, hnd⟩ : ValidState ⟨slots, p :: q :: r :: rs⟩) heq]
            simp
          simp only [if_neg hgt]
          congr 1
          exact ih (m + 1 - 1) _ hv' (by omega) (by omega)
      | none =>
        dsimp only
        have heq : popFrontItem cmp ⟨slots, p :: q :: r :: rs⟩ =
            (some (slots.getD p default).item,
             ⟨slots, siftDown (cmpAt cmp slots)
               (q :: (r :: rs).getLast (List.cons_ne_nil r rs) :: (r :: rs).dropLast) 1⟩) := by
          simp only [popFrontItem]
          rw [hadv]
        have hv' : ValidState (⟨slots, siftDown (cmpAt cmp slots)
            (q :: (r :: rs).getLast (List.cons_ne_nil r rs) :: (r :: rs).dropLast) 1⟩
              : HeapState α) := by
          have h := popFrontItem_valid cmp
            (⟨hb, hnd⟩ : ValidState ⟨slots, p :: q :: r :: rs⟩)
          rw [heq] at h
          exact h
        have htc' : totalCount (⟨slots, siftDown (cmpAt cmp slots)
            (q :: (r :: rs).getLast (List.cons_ne_nil r rs) :: (r :: rs).dropLast) 1⟩
              : HeapState α) + 1 = totalCount ⟨slots, p :: q :: r :: rs⟩ := by
          rw [totalCount_eq_card, totalCount_eq_card,
            popFrontItem_bag cmp (⟨hb, hnd⟩ : ValidState ⟨slots, p :: q :: r :: rs⟩) heq]
          simp
        by_cases hrs : rs = []
        · subst hrs
          simp only [List.getLast_singleton, List.dropLast_single, siftDown_pair] at hv' htc' ⊢
          rw [if_pos trivial]
          congr 1
          exact ih (m + 1 - 1) _ hv' (by omega) (by omega)
        · rw [if_neg hrs]
          congr 1
          exact ih (m + 1 - 1) _ hv' (by omega) (by omega)

/-- **C3.** For every input collection and every comparator, the optimized
bulk drain `into_vec` produces exactly the same sequence of elements as
consuming the merge iterator element-by-element with `next`
(`pop_front_item`) and collecting the results — for any consumption budget
large enough to reach exhaustion. The two-pointer, pairwise-merge and
single-tail specializations are equivalent to the unoptimized loop. -/
theorem c3_into_vec [Inhabited α] (cmp : Cmp α) (inputs : List (List α)) (fuel : Nat)
    (hfuel : totalCount (buildMerge cmp inputs) < fuel) :
    intoVec cmp (buildMerge cmp inputs) = runPop cmp fuel (buildMerge cmp inputs) := by
  have hv : ValidState (buildMerge cmp inputs) :=
    heapifyStorage_valid cmp (mkState_valid inputs)
  exact intoVecGo_eq_runPop cmp (totalCount (buildMerge cmp inputs) + 1) fuel
    (buildMerge cmp inputs) hv (by omega) hfuel

/-- Witness for C3 at a concrete three-way merge. -/
theorem c3_into_vec_witness :
    totalCount (buildMerge defaultC [[(1 : Int), 3], [2, 4], [5]]) < 6 ∧
    intoVec defaultC (buildMerge defaultC [[(1 : Int), 3], [2, 4], [5]]) =
      runPop defaultC 6 (buildMerge defaultC [[(1 : Int), 3], [2, 4], [5]]) :=
  ⟨by decide, c3_into_vec defaultC [[(1 : Int), 3], [2, 4], [5]] 6 (by decide)⟩
